import Mathlib

/-!
Shallow embedding of `src/puzzle.py` (triangular-tile star-puzzle solver) and
verification of its specification claims.

Conventions of the embedding:
* Python's `Side`/`Face`/`Edge`/`Tile` classes become inductive types and
  structures; a `Tile` stores `Option Face` per edge because the source stores
  `None` in the face slots of frame tiles.
* `Tile.rotate` mutates the receiver in Python; it is embedded as a state
  transformer returning the tile's post-state (the Python method returns
  `None`).
* Python `%` and `//` on possibly-negative integers are floor-based for
  positive divisors, which coincides with `Int.emod` / `Int.ediv`.
* Fallible code (list indexing that can raise, attribute access on `None`)
  returns `Option`, with `none` marking the raising execution.
-/

namespace Puzzle

/-- The `Side` enum of the source: lower (`'l'`) or upper (`'u'`) half of a
figure. -/
inductive Side where
  | lower
  | upper
  deriving DecidableEq, Repr

/-- The `Face` class: a figure number (parsed from the first character of the
face code) together with a `Side`. -/
structure Face where
  figure : Nat
  side : Side
  deriving DecidableEq, Repr

instance : Inhabited Face := ⟨⟨0, .lower⟩⟩

/-- Embedding of `Face.fits`: `self._figure == other._figure and self._side != other._side`. -/
def Face.fits (a b : Face) : Bool :=
  a.figure == b.figure && !(a.side == b.side)

/-- The `Edge` enum: the three edge positions of a triangular tile. -/
inductive Edge where
  | base
  | right
  | left
  deriving DecidableEq, Repr

/-- The `Tile` class: one optional `Face` per edge position.  The source keeps
a dict `{BASE: b, RIGHT: r, LEFT: l}` whose values are `Face` objects or
`None` (frame tiles hold `None` at two of the three positions). -/
structure Tile where
  base : Option Face
  right : Option Face
  left : Option Face
  deriving DecidableEq, Repr

instance : Inhabited Tile := ⟨⟨none, none, none⟩⟩

/-- Embedding of `tile[edge]` (`Tile.__getitem__`). -/
def Tile.get (t : Tile) : Edge → Option Face
  | .base => t.base
  | .right => t.right
  | .left => t.left

/-- Embedding of `Tile.rotate(rot)` as a state transformer: the value returned is
the post-state of the mutated receiver (the Python method itself returns
`None`).  `r = rot % 3`; for `r == 1` the faces move Left→Base, Base→Right,
Right→Left; `r == 2` is the inverse permutation; otherwise the tile is left
unchanged. -/
def Tile.rotate (t : Tile) (rot : Int) : Tile :=
  let r := rot % 3
  if r == 1 then ⟨t.left, t.base, t.right⟩
  else if r == 2 then ⟨t.right, t.left, t.base⟩
  else t

/-- Embedding of `face_re = re.compile(r'^[1-6][lu]$', flags=re.IGNORECASE)` applied by
`check_face`: the code is two characters, a digit `1`-`6` followed by
`l`/`L`/`u`/`U` (a single trailing newline is also accepted because `$`
matches before it). -/
def faceOk (code : String) : Bool :=
  match code.data with
  | [d, o] => ('1' ≤ d && d ≤ '6') && (o == 'l' || o == 'L' || o == 'u' || o == 'U')
  | [d, o, nl] =>
      ('1' ≤ d && d ≤ '6') && (o == 'l' || o == 'L' || o == 'u' || o == 'U') && nl == '\n'
  | _ => false

/-- Embedding of `check_board`: raises iff the boundary list length is not a multiple of 6
or some face code fails `check_face`.  `true` means the board is accepted. -/
def check_board (board : List String) : Bool :=
  board.length % 6 == 0 && board.all faceOk

/-- Embedding of `side(board) = (len(board) - 2) // 4` (Python floor division), applied to
the length of whichever sequence is passed. -/
def side (n : Int) : Int :=
  (n - 2) / 4

/-- Embedding of `spaces(s) = 6 * s**2`. -/
def spaces (s : Int) : Int :=
  6 * s ^ 2

/-- The errors `check_game` can raise. -/
inductive GameError where
  | countMismatch (tiles : Nat) (spaces : Int)
  | parityMismatch (figure lower upper : Nat)
  deriving DecidableEq, Repr

/-- Outcome of running `check_game`: success, a raised game error, or a crash
(`AttributeError` on a `None` face / `KeyError` on a figure outside 1..6),
which cannot happen for inputs that passed `check_tile`/`check_face`. -/
inductive CheckOutcome where
  | ok
  | err (e : GameError)
  | crash
  deriving DecidableEq, Repr

/-- Count the faces of a given figure and side in a face list (the
`counts[face.figure][...] += 1` bookkeeping of `check_game`). -/
def countSide (faces : List Face) (fig : Nat) (sd : Side) : Nat :=
  faces.countP (fun f => f.figure == fig && f.side == sd)

/-- The parity scan of `check_game`: the first figure in 1..6 whose lower and
upper counts differ, with those counts. -/
def firstParityErr (faces : List Face) : Option (Nat × Nat × Nat) :=
  ([1, 2, 3, 4, 5, 6] : List Nat).findSome? (fun fig =>
    let lo := countSide faces fig .lower
    let hi := countSide faces fig .upper
    if lo ≠ hi then some (fig, lo, hi) else none)

/-- Sequence a list of optional faces; `none` marks the `AttributeError` the
source would raise on a tile face that is `None`. -/
def seqFaces : List (Option Face) → Option (List Face)
  | [] => some []
  | some f :: rest => (seqFaces rest).map (f :: ·)
  | none :: _ => none

/-- Embedding of `check_game(board, tiles)`: first the tile-count check against
`spaces(side(board))`, then the per-figure lower/upper parity scan over the
boundary faces followed by every face of every tile (in Edge order
BASE, RIGHT, LEFT).  A face with figure outside 1..6 or a `None` tile face
would crash the counting loop before any parity error is raised. -/
def check_game (board : List Face) (tiles : List Tile) : CheckOutcome :=
  if (tiles.length : Int) ≠ spaces (side board.length) then
    .err (.countMismatch tiles.length (spaces (side board.length)))
  else
    match seqFaces (tiles.flatMap (fun t => [t.base, t.right, t.left])) with
    | none => .crash
    | some tfaces =>
      let all := board ++ tfaces
      if all.any (fun f => !(1 ≤ f.figure && f.figure ≤ 6)) then .crash
      else
        match firstParityErr all with
        | some (fig, lo, hi) => .err (.parityMismatch fig lo hi)
        | none => .ok

/-- The local `lengths` tuple of `init_solution`:
`( side, ) + chain(*((l + 2, l + 1) for l in range(side, 2 * side)))`. -/
def lengths (side : Nat) : List Nat :=
  side :: (List.range' side side).flatMap (fun l => [l + 2, l + 1])

/-- The full row-length sequence of the board grid:
`chain(lengths, reversed(lengths))`. -/
def rowLengths (side : Nat) : List Nat :=
  lengths side ++ (lengths side).reverse

/-- Row lengths exactly as the spec words them: the sequence
`s, (s+2, s+1), (s+3, s+2), …, (2s+1, 2s)` followed by its mirror image. -/
def specRowLengths (s : Nat) : List Nat :=
  (s :: (List.range s).flatMap (fun k => [s + 2 + k, s + 1 + k])) ++
    (s :: (List.range s).flatMap (fun k => [s + 2 + k, s + 1 + k])).reverse

/-- The board grid: a list of rows of slots, each slot either empty (`none`)
or holding a (possibly partial, for the frame) tile. -/
abbrev Grid := List (List (Option Tile))

/-- Assignment `solution[r][c] = v` on a grid (out-of-range indices leave the grid
unchanged, matching `List.set`; the source only uses in-range indices). -/
def setCell (g : Grid) (r c : Nat) (v : Option Tile) : Grid :=
  g.set r ((g.getD r []).set c v)

/-- Read slot `(r, c)`; `none` means the coordinate does not exist. -/
def getCell (g : Grid) (r c : Nat) : Option (Option Tile) :=
  g[r]?.bind (fun row => row[c]?)

/-- Assignment `solution[r][-1] = v`: assign the last slot of row `r`. -/
def setLast (g : Grid) (r : Nat) (v : Option Tile) : Grid :=
  setCell g r ((g.getD r []).length - 1) v

/-- A frame tile `Tile(f, None, None)` (base face only). -/
def frameB (f : Face) : Tile := ⟨some f, none, none⟩

/-- A frame tile `Tile(None, f, None)` (right face only). -/
def frameR (f : Face) : Tile := ⟨none, some f, none⟩

/-- A frame tile `Tile(None, None, f)` (left face only). -/
def frameL (f : Face) : Tile := ⟨none, none, some f⟩

/-- Embedding of `init_solution(board)`: build the grid of `2 + 4*side` rows
(`side = len(board) // 6`), all slots empty, then walk the boundary faces in
order around the frame.  The Python generator `faces` consumes `board`
sequentially; since the consumption order is deterministic the j-th face each
loop consumes is written here by its index into `board`:
row 0 takes faces `0..side-1`; the loop over odd rows `1, 3, …, 2*side-1`
takes faces `side + j`; the loop over even rows `2*side+2, …, 4*side` takes
faces `2*side + j`; the bottom row takes faces `3*side..4*side-1` (reversed);
the loop over rows `4*side, 4*side-2, …, 2*side+2` takes faces `4*side + j`;
the loop over rows `2*side-1, 2*side-3, …, 1` takes faces `5*side + j`. -/
def init_solution (board : List Face) : Grid :=
  let side := board.length / 6
  let sol0 : Grid := (lengths side ++ (lengths side).reverse).map
    (fun l => List.replicate l none)
  let sol1 := sol0.set 0 ((board.take side).map (fun f => some (frameB f)))
  let sol2 := (List.range side).foldl
    (fun g j => setLast g (2 * j + 1) (some (frameL (board.getD (side + j) default)))) sol1
  let sol3 := (List.range side).foldl
    (fun g j => setLast g (2 * side + 2 + 2 * j)
      (some (frameR (board.getD (2 * side + j) default)))) sol2
  let sol4 := sol3.set (4 * side + 1)
    ((((board.drop (3 * side)).take side).reverse).map (fun f => some (frameB f)))
  let sol5 := (List.range side).foldl
    (fun g j => setCell g (4 * side - 2 * j) 0
      (some (frameL (board.getD (4 * side + j) default)))) sol4
  let sol6 := (List.range side).foldl
    (fun g j => setCell g (2 * side - 1 - 2 * j) 0
      (some (frameR (board.getD (5 * side + j) default)))) sol5
  sol6

/-- Embedding of `adj_spaces(side, row, col)`: the three neighbor coordinates of slot
`(row, col)` with the edge position along which they touch, exactly as the
source computes them from the row parity and the position relative to the
waist `2*side`. -/
def adj_spaces (side row col : Int) : List (Int × Int × Edge) :=
  let base_off : Int := if row % 2 == 1 then -1 else 1
  let center := 2 * side
  [(row + base_off,
      if row < center then col + base_off
      else if row > center + 1 then col - base_off else col, Edge.base),
   (row - base_off, if row ≤ center then col else col - base_off, Edge.right),
   (row - base_off, if row ≤ center then col + base_off else col, Edge.left)]

/-- Python list indexing `l[i]`: negative indices count from the end; an
index outside `-len .. len-1` raises (`none`). -/
def pyGet (l : List (Option Tile)) (i : Int) : Option (Option Tile) :=
  if 0 ≤ i then l[i.toNat]?
  else if 0 ≤ i + l.length then l[(i + l.length).toNat]?
  else none

/-- Python row indexing on the grid. -/
def pyGetRow (g : Grid) (i : Int) : Option (List (Option Tile)) :=
  if 0 ≤ i then g[i.toNat]?
  else if 0 ≤ i + g.length then g[(i + g.length).toNat]?
  else none

/-- Lookup `board[adj_row][adj_col]` with Python indexing; `none` is an
`IndexError`. -/
def getCellI (g : Grid) (r c : Int) : Option (Option Tile) :=
  (pyGetRow g r).bind (fun row => pyGet row c)

/-- Evaluation of `a.fits(b)` where either side may be a missing (`None`) face: `none`
marks the `AttributeError` the source would raise. -/
def fitOpt (a b : Option Face) : Option Bool :=
  match a, b with
  | some x, some y => some (x.fits y)
  | _, _ => none

/-- The loop body of `try_tile` over the remaining neighbor triples:
`some true` / `some false` are the source's return values, `none` is a crash
(index error or a `fits` call involving a missing face). -/
def ttGo (tile : Tile) (g : Grid) : List (Int × Int × Edge) → Option Bool
  | [] => some true
  | (ar, ac, e) :: rest =>
    match getCellI g ar ac with
    | none => none
    | some none => ttGo tile g rest
    | some (some adj) =>
      match fitOpt (tile.get e) (adj.get e) with
      | none => none
      | some true => ttGo tile g rest
      | some false => some false

/-- Embedding of `try_tile(tile, board, row, col)`: test `tile` against the faces of the
non-empty neighbors of `(row, col)`. -/
def try_tile (tile : Tile) (g : Grid) (row col : Int) : Option Bool :=
  ttGo tile g (adj_spaces (side (g.length : Int)) row col)

/-- First `none` slot of a single row. -/
def firstNone : List (Option Tile) → Option Nat
  | [] => none
  | none :: _ => some 0
  | some _ :: rest => (firstNone rest).map (· + 1)

/-- The row-major scan of `solve` for the first empty slot. -/
def findEmpty : Grid → Option (Nat × Nat)
  | [] => none
  | row :: rest =>
    match firstNone row with
    | some c => some (0, c)
    | none => (findEmpty rest).map (fun rc => (rc.1 + 1, rc.2))

/-- One candidate-tile loop level of `solve`, fuel-free: `rec` is the
recursive call on the reduced tile list.  The inner list is the three
cumulative in-place rotations the source performs (`tile.rotate()` thrice, so
the orientations tried are `rotate 1`, `rotate 2`, `rotate 3 = rotate 0`).
`none` propagates a recursive call that ran out of fuel. -/
def tryRots (rec : Grid → List Tile → Option (List Grid)) (g : Grid)
    (tiles : List Tile) (row col k : Nat) : List Nat → Option (List Grid)
  | [] => some []
  | m :: ms =>
    let t := (tiles.getD k default).rotate (m : Int)
    let first :=
      if try_tile t g (row : Int) (col : Int) = some true then
        rec (setCell g row col (some t)) (tiles.eraseIdx k)
      else some []
    match first, tryRots rec g tiles row col k ms with
    | some a, some b => some (a ++ b)
    | _, _ => none

/-- The `for k, tile in enumerate(tiles)` loop of `solve`. -/
def tryKs (rec : Grid → List Tile → Option (List Grid)) (g : Grid)
    (tiles : List Tile) (row col : Nat) : List Nat → Option (List Grid)
  | [] => some []
  | k :: ks =>
    match tryRots rec g tiles row col k [1, 2, 3], tryKs rec g tiles row col ks with
    | some a, some b => some (a ++ b)
    | _, _ => none

/-- Embedding of `solve(solution, tiles)` with an explicit recursion-depth fuel: the
source's recursion consumes one tile per level, so any fuel above
`len(tiles)` is sufficient (proved below); `none` means the fuel ran out.
With tiles remaining, scan for the first empty slot; if there is none the
branch is dead and yields nothing; otherwise try every remaining tile in
every rotation, recursing on success with the tile placed and removed
(`tiles[:k] + tiles[k+1:]`).  With no tiles left, yield the board. -/
def solveF : Nat → Grid → List Tile → Option (List Grid)
  | 0, _, _ => none
  | fuel + 1, g, tiles =>
    match tiles with
    | [] => some [g]
    | _ :: _ =>
      match findEmpty g with
      | none => some []
      | some (row, col) => tryKs (solveF fuel) g tiles row col (List.range tiles.length)

/-- Embedding of `solve(solution, tiles)`: the finite list of boards the generator yields,
in yield order.  `tiles.length + 1` levels of fuel always suffice. -/
def solve (g : Grid) (tiles : List Tile) : List Grid :=
  (solveF (tiles.length + 1) g tiles).getD []

/-! ## Derived vocabulary used to state the claims -/

/-- Closed form of the entries of `lengths side`: entry `0` is `side`, odd
entries `2j+1` are `side + j + 2`, even entries `2j+2` are `side + j + 1`. -/
def uHalf (s i : Nat) : Nat :=
  if i = 0 then s
  else if i % 2 = 1 then s + (i + 3) / 2
  else s + i / 2

/-- Closed form of the length of row `r` in a board of order `s` (rows
`0 .. 4s+1`; the lower half mirrors the upper half). -/
def rowLen (s r : Nat) : Nat :=
  if r ≤ 2 * s then uHalf s r else uHalf s (4 * s + 1 - r)

/-- Coordinates of the interior (initially empty) slots of a board of order
`s`: rows `1 .. 4s`; on the odd rows of the upper half and the even rows of
the strict lower half the first and last slots are frame slots. -/
def Interior (s r c : Nat) : Prop :=
  1 ≤ r ∧ r ≤ 4 * s ∧ c < rowLen s r ∧
    ((r % 2 = 1 ∧ r < 2 * s) ∨ (r % 2 = 0 ∧ 2 * s + 2 ≤ r) →
      1 ≤ c ∧ c + 1 < rowLen s r)

instance (s r c : Nat) : Decidable (Interior s r c) := by
  unfold Interior; infer_instance

/-- The edge position at which a frame slot of the initial board carries its
single face: base faces on the top and bottom rows, right/left faces on the
first/last slots of the upper-half frame rows, and mirrored on the lower
half. -/
def frameEdge (s r c : Nat) : Edge :=
  if r = 0 ∨ r = 4 * s + 1 then .base
  else if c = 0 then (if r ≤ 2 * s then .right else .left)
  else (if r ≤ 2 * s then .left else .right)

/-- A tile whose three face slots are all present (every tile built by
`load_tiles` is full). -/
def FullTile (t : Tile) : Prop :=
  t.base.isSome ∧ t.right.isSome ∧ t.left.isSome

instance (t : Tile) : Decidable (FullTile t) := by
  unfold FullTile; infer_instance

/-- Positions of the `None` slots of one row, in order. -/
def nonesRow : List (Option Tile) → List Nat
  | [] => []
  | none :: rest => 0 :: (nonesRow rest).map (· + 1)
  | some _ :: rest => (nonesRow rest).map (· + 1)

/-- Positions of the `None` slots of a grid, in the row-major order in which
`solve` scans them. -/
def nones : Grid → List (Nat × Nat)
  | [] => []
  | row :: rest =>
    (nonesRow row).map (fun c => (0, c)) ++ (nones rest).map (fun rc => (rc.1 + 1, rc.2))

/-- Two grids with the same row structure. -/
def SameShape (a b : Grid) : Prop :=
  ∀ r : Nat, a[r]?.map List.length = b[r]?.map List.length

/-- Tile `t'` is tile `t` in one of its three rotations. -/
def RotEq (t t' : Tile) : Prop :=
  ∃ m : Nat, m < 3 ∧ t' = t.rotate (m : Int)

/-- The tiles a complete board `b` places on the slots that are empty in `g`,
in row-major slot order. -/
def placedTiles (b g : Grid) : List Tile :=
  (nones g).filterMap (fun rc => (getCell b rc.1 rc.2).bind id)

/-- Invariant of every grid the search reaches from `init_solution board`:
same shape, frame slots untouched, and every filled interior slot holds a
full tile. -/
def GoodState (g0 g : Grid) : Prop :=
  SameShape g g0 ∧
  (∀ r c x, getCell g0 r c = some x → x ≠ none → getCell g r c = some x) ∧
  (∀ r c t, getCell g0 r c = some none → getCell g r c = some (some t) → FullTile t)

/-- Constraint invariant: every filled interior slot passes `try_tile`
against the current grid. -/
def Consistent (g0 g : Grid) : Prop :=
  ∀ r c t, getCell g0 r c = some none → getCell g r c = some (some t) →
    try_tile t g (r : Int) (c : Int) = some true

/-- The search states `solve` reaches from the initial state `(g0, tiles0)`:
exactly the recursive calls the source performs — scan for the first empty
slot, pick a remaining tile index `k` and a rotation amount `m`, and recurse
with the rotated tile placed there if it passes `try_tile`. -/
inductive Reaches (g0 : Grid) (tiles0 : List Tile) : Grid → List Tile → Prop where
  | init : Reaches g0 tiles0 g0 tiles0
  | step {g : Grid} {tiles : List Tile} {row col k m : Nat} :
      Reaches g0 tiles0 g tiles →
      findEmpty g = some (row, col) →
      k < tiles.length →
      try_tile ((tiles.getD k default).rotate (m : Int)) g (row : Int) (col : Int)
        = some true →
      Reaches g0 tiles0
        (setCell g row col (some ((tiles.getD k default).rotate (m : Int))))
        (tiles.eraseIdx k)

/-! ## Concrete order-1 fixture

A hand-built order-1 puzzle with boundary faces (in the order the frame
consumes them) `[1l, 3u, 5l, 6u, 4l, 2u]` and six full tiles; it has exactly
one solution, used as the concrete witness input below. -/

/-- Boundary faces of the order-1 fixture, in frame consumption order. -/
def fixB : List Face :=
  [⟨1, .lower⟩, ⟨3, .upper⟩, ⟨5, .lower⟩, ⟨6, .upper⟩, ⟨4, .lower⟩, ⟨2, .upper⟩]

/-- The six tiles of the order-1 fixture. -/
def fixT : List Tile :=
  [⟨some ⟨1, .upper⟩, some ⟨1, .upper⟩, some ⟨2, .upper⟩⟩,
   ⟨some ⟨3, .lower⟩, some ⟨2, .lower⟩, some ⟨2, .lower⟩⟩,
   ⟨some ⟨4, .lower⟩, some ⟨1, .lower⟩, some ⟨3, .lower⟩⟩,
   ⟨some ⟨3, .upper⟩, some ⟨5, .upper⟩, some ⟨4, .upper⟩⟩,
   ⟨some ⟨4, .upper⟩, some ⟨5, .upper⟩, some ⟨6, .upper⟩⟩,
   ⟨some ⟨6, .lower⟩, some ⟨5, .lower⟩, some ⟨6, .lower⟩⟩]

/-- The unique solved board of the order-1 fixture. -/
def fixSol : Grid :=
  [[some (frameB ⟨1, .lower⟩)],
   [some (frameR ⟨2, .upper⟩), some ⟨some ⟨1, .upper⟩, some ⟨1, .upper⟩, some ⟨2, .upper⟩⟩,
    some (frameL ⟨3, .upper⟩)],
   [some ⟨some ⟨3, .lower⟩, some ⟨2, .lower⟩, some ⟨2, .lower⟩⟩,
    some ⟨some ⟨4, .lower⟩, some ⟨1, .lower⟩, some ⟨3, .lower⟩⟩],
   [some ⟨some ⟨3, .upper⟩, some ⟨5, .upper⟩, some ⟨4, .upper⟩⟩,
    some ⟨some ⟨4, .upper⟩, some ⟨5, .upper⟩, some ⟨6, .upper⟩⟩],
   [some (frameL ⟨4, .lower⟩),
    some ⟨some ⟨6, .lower⟩, some ⟨5, .lower⟩, some ⟨6, .lower⟩⟩,
    some (frameR ⟨5, .lower⟩)],
   [some (frameB ⟨6, .upper⟩)]]

/-- Boundary fixture of the parity claim: face codes
`["1u","1u","2l","2u","3l","3u"]` already parsed to `Face` values. -/
def parityFixture : List Face :=
  [⟨1, .upper⟩, ⟨1, .upper⟩, ⟨2, .lower⟩, ⟨2, .upper⟩, ⟨3, .lower⟩, ⟨3, .upper⟩]

/-! ## Basic lemmas -/

/-- Length of the upper-half row-length list. -/
theorem lengths_length (s : Nat) : (lengths s).length = 2 * s + 1 := by
  simp [lengths, List.length_flatMap, List.range'_eq_map_range, Function.comp_def,
    List.map_const', List.sum_replicate, smul_eq_mul, Nat.mul_comm]

/-- The source's `lengths` list rewritten over `List.range`. -/
theorem lengths_eq (s : Nat) :
    lengths s = s :: (List.range s).flatMap (fun k => [s + 2 + k, s + 1 + k]) := by
  simp only [lengths, List.range'_eq_map_range, List.flatMap_map]
  congr 1
  apply List.flatMap_congr
  intro k _
  simp [Function.comp_def]
  omega

/-! ## Claim C5 -/

/-- Claim C5, counterexample: the row-length sequence for order 1 is not the
spec's 7-entry literal `[1,3,2,4,2,3,1]` (a 6-row board cannot have 7 row
lengths). -/
theorem rowLengths_one_ne_literal : rowLengths 1 ≠ [1, 3, 2, 4, 2, 3, 1] := by decide

/-- Claim C5, amended: for order `s` the board has `2 + 4s` rows whose
lengths are `s, (s+2, s+1), (s+3, s+2), …, (2s+1, 2s)` followed by the mirror
image of that sequence; for `s = 1` this is the literal `[1,3,2,2,3,1]`. -/
theorem rowLengths_spec : ∀ s : Nat, rowLengths s = specRowLengths s ∧
    (rowLengths s).length = 2 + 4 * s ∧ rowLengths 1 = [1, 3, 2, 2, 3, 1] := by
  intro s
  refine ⟨?_, ?_, by decide⟩
  · simp [rowLengths, specRowLengths, lengths_eq]
  · have h := lengths_length s
    simp [rowLengths, h]
    omega

/-! ## Claim C8 -/

/-- Claim C8, counterexample: `rotate` is not pure; after `tile.rotate(1)`
the tile's own faces have changed (the embedding returns the mutated
post-state of the receiver). -/
theorem rotate_mutates :
    Tile.rotate ⟨some ⟨1, .lower⟩, some ⟨2, .lower⟩, some ⟨3, .lower⟩⟩ 1 ≠
      ⟨some ⟨1, .lower⟩, some ⟨2, .lower⟩, some ⟨3, .lower⟩⟩ := by decide

/-- Claim C8, amended: `rotate(tile, amount)` permutes the tile's faces in
place by `amount mod 3` (for `amount ≡ 1`: Left→Base, Base→Right,
Right→Left) and returns no new tile; rotation is periodic with period 3, a
single step is the stated cyclic permutation, and rotating by 0 leaves the
tile unchanged. -/
theorem rotate_inplace_cyclic : ∀ (t : Tile) (rot : Int),
    t.rotate (rot + 3) = t.rotate rot ∧
    ((t.rotate 1).rotate 1).rotate 1 = t ∧
    t.rotate 1 = ⟨t.left, t.base, t.right⟩ ∧ t.rotate 0 = t := by
  intro t rot
  have h : (rot + 3) % 3 = rot % 3 := by omega
  exact ⟨by simp [Tile.rotate, h], by rfl, by rfl, by rfl⟩

/-! ## Claim C3 -/

/-- Claim C3, counterexample: on the boundary `["1u","1u","2l","2u","3l","3u"]`
with zero tiles, `check_game` raises the tile-count mismatch (0 tiles for 6
spaces), not the figure-1 parity mismatch the claim expects. -/
theorem check_game_fixture_count_first :
    check_game parityFixture [] = .err (.countMismatch 0 6) ∧
    check_game parityFixture [] ≠ .err (.parityMismatch 1 0 2) := by decide

/-- Claim C3, amended: on that fixture `check_game` reports the count
mismatch (0 tiles for 6 spaces) because the count check precedes the parity
scan; the parity scan itself, had it been reached, would flag figure 1 with
0 lower and 2 upper faces. -/
theorem check_game_fixture_parity :
    check_game parityFixture [] = .err (.countMismatch 0 6) ∧
    firstParityErr parityFixture = some (1, 0, 2) := by decide

/-! ## Claim C4 -/

/-- Claim C4, counterexample: a well-formed boundary of length `10 = 4*2+2`
(matching the claim's `4s+2` for its inferred order `side = 2`) is rejected
by `check_board`, while a well-formed boundary of length 12, which is not
`4s+2` for its inferred order, is accepted. -/
theorem check_board_not_4s2 :
    check_board (List.replicate 10 "1u") = false ∧
    (10 : Int) = 4 * side 10 + 2 ∧
    check_board (List.replicate 12 "1u") = true ∧
    (12 : Int) ≠ 4 * side 12 + 2 := by decide

/-! ## Indexing the row-length sequence -/

/-- Length of a flatMap of pairs over a range. -/
theorem flatMap_pairs_length (f g : Nat → Nat) (n : Nat) :
    ((List.range n).flatMap (fun j => [f j, g j])).length = 2 * n := by
  simp [List.length_flatMap, Function.comp_def, List.map_const', List.sum_replicate,
    smul_eq_mul, Nat.mul_comm]

/-- Entry `k` of a flatMap of pairs over a range. -/
theorem flatMap_pairs_getElem? (f g : Nat → Nat) (n k : Nat) :
    ((List.range n).flatMap (fun j => [f j, g j]))[k]? =
      if k < 2 * n then some (if k % 2 = 0 then f (k / 2) else g (k / 2)) else none := by
  induction n with
  | zero => simp
  | succ n ih =>
    rw [List.range_succ, List.flatMap_append]
    rcases Nat.lt_or_ge k (2 * n) with h | h
    · rw [List.getElem?_append_left (by rw [flatMap_pairs_length]; omega), ih,
        if_pos h, if_pos (show k < 2 * (n + 1) by omega)]
    · rw [List.getElem?_append_right (by rw [flatMap_pairs_length]; omega)]
      rw [flatMap_pairs_length]
      simp only [List.flatMap_cons, List.flatMap_nil, List.append_nil]
      rcases Nat.lt_or_ge k (2 * (n + 1)) with h2 | h2
      · rcases Nat.eq_or_lt_of_le h with h3 | h3
        · have hd : k - 2 * n = 0 := by omega
          have hk : k % 2 = 0 := by omega
          have hk2 : k / 2 = n := by omega
          rw [hd, if_pos h2, if_pos hk, hk2]
          rfl
        · have hd : k - 2 * n = 1 := by omega
          have hk : ¬(k % 2 = 0) := by omega
          have hk2 : k / 2 = n := by omega
          rw [hd, if_pos h2, if_neg hk, hk2]
          rfl
      · rw [List.getElem?_eq_none (by simp; omega), if_neg (by omega)]

/-- Entry `i` of the upper-half length list is `uHalf s i`. -/
theorem lengths_getElem? (s i : Nat) :
    (lengths s)[i]? = if i < 2 * s + 1 then some (uHalf s i) else none := by
  rw [lengths_eq]
  cases i with
  | zero => simp [uHalf]
  | succ m =>
    simp only [List.getElem?_cons_succ]
    rw [flatMap_pairs_getElem?]
    rcases Nat.lt_or_ge m (2 * s) with h | h
    · rcases Nat.mod_two_eq_zero_or_one m with hm | hm
      · have hm1 : (m + 1) % 2 = 1 := by omega
        have harith : s + 2 + m / 2 = s + (m + 1 + 3) / 2 := by omega
        rw [if_pos h, if_pos hm, if_pos (by omega)]
        simp [uHalf, hm1, harith]
      · have hm1 : (m + 1) % 2 = 0 := by omega
        have harith : s + 1 + m / 2 = s + (m + 1) / 2 := by omega
        rw [if_pos h, if_neg (by omega), if_pos (by omega)]
        simp [uHalf, hm1, harith]
    · rw [if_neg (by omega), if_neg (by omega)]

/-- Entry `r` of the full row-length sequence is `rowLen s r`. -/
theorem rowLengths_getElem? (s r : Nat) :
    (rowLengths s)[r]? = if r < 4 * s + 2 then some (rowLen s r) else none := by
  unfold rowLengths
  rcases Nat.lt_or_ge r (2 * s + 1) with h | h
  · rw [List.getElem?_append_left (by rw [lengths_length]; omega), lengths_getElem?,
      if_pos h, if_pos (by omega)]
    have h2 : r ≤ 2 * s := by omega
    rw [rowLen, if_pos h2]
  · rw [List.getElem?_append_right (by rw [lengths_length]; omega), lengths_length]
    rcases Nat.lt_or_ge r (4 * s + 2) with h2 | h2
    · have hlt : r - (2 * s + 1) < (lengths s).length := by
        rw [lengths_length]; omega
      rw [List.getElem?_reverse hlt, lengths_length, lengths_getElem?]
      have harg : 2 * s + 1 - 1 - (r - (2 * s + 1)) = 4 * s + 1 - r := by omega
      rw [harg, if_pos (by omega), if_pos h2, rowLen, if_neg (by omega)]
    · rw [List.getElem?_eq_none (by rw [List.length_reverse, lengths_length]; omega),
        if_neg (by omega)]

/-! ## Grid cell and row lemmas -/

/-- Length is preserved by `setCell`. -/
theorem length_setCell (g : Grid) (r c : Nat) (v : Option Tile) :
    (setCell g r c v).length = g.length := by
  simp [setCell]

/-- Rows other than `r` are unchanged by `setCell`. -/
theorem getElem?_setCell_ne (g : Grid) {r r' : Nat} (c : Nat) (v : Option Tile)
    (h : r ≠ r') : (setCell g r c v)[r']? = g[r']? := by
  simp [setCell, List.getElem?_set_ne h]

/-- Row `r` after `setCell g r c v`. -/
theorem getElem?_setCell_self (g : Grid) (r c : Nat) (v : Option Tile) :
    (setCell g r c v)[r]? = (g[r]?).map (fun row => row.set c v) := by
  rcases Nat.lt_or_ge r g.length with h | h
  · rw [setCell, List.getElem?_set_self']
    have : g.getD r [] = g[r] := by
      simp [List.getD_eq_getElem?_getD, List.getElem?_eq_getElem h]
    rw [this]
    simp [List.getElem?_eq_getElem h]
  · rw [setCell, List.getElem?_set_self']
    simp [List.getElem?_eq_none h]

/-- Rows other than `r` are unchanged by `setLast`. -/
theorem getElem?_setLast_ne (g : Grid) {r r' : Nat} (v : Option Tile)
    (h : r ≠ r') : (setLast g r v)[r']? = g[r']? :=
  getElem?_setCell_ne g _ v h

/-- Row `r` after `setLast g r v`. -/
theorem getElem?_setLast_self (g : Grid) (r : Nat) (v : Option Tile) :
    (setLast g r v)[r]? = (g[r]?).map (fun row => row.set (row.length - 1) v) := by
  rcases Nat.lt_or_ge r g.length with h | h
  · rw [setLast, getElem?_setCell_self]
    have : g.getD r [] = g[r] := by
      simp [List.getD_eq_getElem?_getD, List.getElem?_eq_getElem h]
    simp [this, List.getElem?_eq_getElem h]
  · rw [setLast, getElem?_setCell_self]
    simp [List.getElem?_eq_none h]

/-- Generic fold over row updates: rows not named by `ρ` are untouched. -/
theorem foldl_rows_ne (F : Grid → Nat → Grid) (ρ : Nat → Nat)
    (hne : ∀ g j r', ρ j ≠ r' → (F g j)[r']? = g[r']?)
    (l : List Nat) (r : Nat) (h : ∀ j ∈ l, ρ j ≠ r) :
    ∀ g : Grid, (l.foldl F g)[r]? = g[r]? := by
  induction l with
  | nil => intro g; rfl
  | cons a l ih =>
    intro g
    rw [List.foldl_cons, ih (fun j hj => h j (List.mem_cons_of_mem a hj))]
    exact hne g a r (h a (List.mem_cons_self a l))

/-- Generic fold over row updates: the unique update hitting row `r = ρ j0`
applies its row transformer to the original row. -/
theorem foldl_rows_hit (F : Grid → Nat → Grid) (ρ : Nat → Nat)
    (rowF : Nat → List (Option Tile) → List (Option Tile))
    (hne : ∀ g j r', ρ j ≠ r' → (F g j)[r']? = g[r']?)
    (hhit : ∀ (g : Grid) (j r'), ρ j = r' → (F g j)[r']? = (g[r']?).map (rowF j)) :
    ∀ (n j0 r : Nat), j0 < n → ρ j0 = r → (∀ j, j < n → ρ j = r → j = j0) →
    ∀ g : Grid, ((List.range n).foldl F g)[r]? = (g[r]?).map (rowF j0) := by
  intro n
  induction n with
  | zero => intro j0 r h; omega
  | succ n ih =>
    intro j0 r hj0 hr huniq g
    rw [List.range_succ, List.foldl_append, List.foldl_cons, List.foldl_nil]
    rcases Nat.lt_or_ge j0 n with h | h
    · have hn : ρ n ≠ r := fun he => by
        have := huniq n (by omega) he; omega
      rw [hne _ n _ hn]
      exact ih j0 r h hr (fun j hj he => huniq j (by omega) he) g
    · have hj0n : j0 = n := by omega
      subst hj0n
      rw [hhit _ _ _ hr]
      rw [foldl_rows_ne F ρ hne _ _ (fun j hj => fun he => by
        have hjlt := List.mem_range.mp hj
        have := huniq j (by omega) he
        omega)]

/-! ## Closed form of the row lengths by row class -/

/-- Row length of the top row. -/
theorem rowLen_top (s : Nat) : rowLen s 0 = s := by
  simp [rowLen, uHalf]

/-- Row length of the odd rows of the upper half. -/
theorem rowLen_oddUp {s j : Nat} (h : j < s) : rowLen s (2 * j + 1) = s + j + 2 := by
  unfold rowLen uHalf
  split_ifs <;> first | contradiction | omega

/-- Row length of the even rows of the upper half (including the waist). -/
theorem rowLen_evenUp {s j : Nat} (h : j < s) : rowLen s (2 * j + 2) = s + j + 1 := by
  unfold rowLen uHalf
  split_ifs <;> first | contradiction | omega

/-- Row length of the odd rows of the lower half. -/
theorem rowLen_oddLow {s j : Nat} (h : j < s) :
    rowLen s (2 * s + 1 + 2 * j) = 2 * s - j := by
  unfold rowLen uHalf
  split_ifs <;> first | contradiction | omega

/-- Row length of the even rows of the strict lower half. -/
theorem rowLen_evenLow {s j : Nat} (h : j < s) :
    rowLen s (2 * s + 2 + 2 * j) = 2 * s + 1 - j := by
  unfold rowLen uHalf
  split_ifs <;> first | contradiction | omega

/-- Row length of the bottom row. -/
theorem rowLen_bottom (s : Nat) : rowLen s (4 * s + 1) = s := by
  unfold rowLen uHalf
  split_ifs <;> first | contradiction | omega

/-- Classification of the row indices of a board of order `s`. -/
theorem row_classes {s r : Nat} (hs : 1 ≤ s) (hr : r < 4 * s + 2) :
    r = 0 ∨ (∃ j, j < s ∧ r = 2 * j + 1) ∨ (∃ j, j < s ∧ r = 2 * j + 2) ∨
    (∃ j, j < s ∧ r = 2 * s + 1 + 2 * j) ∨ (∃ j, j < s ∧ r = 2 * s + 2 + 2 * j) ∨
    r = 4 * s + 1 := by
  rcases Nat.mod_two_eq_zero_or_one r with h | h
  · rcases Nat.lt_or_ge r 1 with h1 | h1
    · exact Or.inl (by omega)
    rcases Nat.lt_or_ge r (2 * s + 1) with h2 | h2
    · exact Or.inr (Or.inr (Or.inl ⟨r / 2 - 1, by omega, by omega⟩))
    · exact Or.inr (Or.inr (Or.inr (Or.inr (Or.inl ⟨(r - 2 * s - 2) / 2, by omega, by omega⟩))))
  · rcases Nat.lt_or_ge r (2 * s) with h2 | h2
    · exact Or.inr (Or.inl ⟨r / 2, by omega, by omega⟩)
    rcases Nat.lt_or_ge r (4 * s + 1) with h3 | h3
    · exact Or.inr (Or.inr (Or.inr (Or.inl ⟨(r - 2 * s - 1) / 2, by omega, by omega⟩)))
    · exact Or.inr (Or.inr (Or.inr (Or.inr (Or.inr (by omega)))))

/-- Length is preserved by `setLast`. -/
theorem length_setLast (g : Grid) (r : Nat) (v : Option Tile) :
    (setLast g r v).length = g.length :=
  length_setCell g r _ v

/-- Length preservation through a fold of row updates. -/
theorem foldl_rows_length (F : Grid → Nat → Grid)
    (hF : ∀ g j, (F g j).length = g.length) :
    ∀ (l : List Nat) (g : Grid), (l.foldl F g).length = g.length := by
  intro l
  induction l with
  | nil => intro g; rfl
  | cons a l ih => intro g; rw [List.foldl_cons, ih, hF]

/-- Number of rows of the initial board. -/
theorem init_length (board : List Face) (s : Nat) (hb : board.length = 6 * s) :
    (init_solution board).length = 4 * s + 2 := by
  have hq : board.length / 6 = s := by omega
  simp only [init_solution]
  simp only [hq]
  rw [foldl_rows_length _ (fun g j => length_setCell g _ 0 _)]
  rw [foldl_rows_length _ (fun g j => length_setCell g _ 0 _)]
  rw [List.length_set]
  rw [foldl_rows_length _ (fun g j => length_setLast g _ _)]
  rw [foldl_rows_length _ (fun g j => length_setLast g _ _)]
  rw [List.length_set, List.length_map, List.length_append, List.length_reverse,
    lengths_length]
  omega

/-- Row 0 of the initial board: the top frame row. -/
theorem init_row_top (board : List Face) (s : Nat) (hs : 1 ≤ s)
    (hb : board.length = 6 * s) :
    (init_solution board)[0]? =
      some ((board.take s).map (fun f => some (frameB f))) := by
  have hq : board.length / 6 = s := by omega
  simp only [init_solution]
  simp only [hq]
  rw [foldl_rows_ne _ (fun j => 2 * s - 1 - 2 * j)
        (fun g j r' h => getElem?_setCell_ne g 0 _ h) _ 0
        (fun j hj => by
          have := List.mem_range.mp hj
          show 2 * s - 1 - 2 * j ≠ 0
          omega)]
  rw [foldl_rows_ne _ (fun j => 4 * s - 2 * j)
        (fun g j r' h => getElem?_setCell_ne g 0 _ h) _ 0
        (fun j hj => by
          have := List.mem_range.mp hj
          show 4 * s - 2 * j ≠ 0
          omega)]
  rw [List.getElem?_set_ne (show 4 * s + 1 ≠ 0 by omega)]
  rw [foldl_rows_ne _ (fun j => 2 * s + 2 + 2 * j)
        (fun g j r' h => getElem?_setLast_ne g _ h) _ 0
        (fun j hj => by
          have := List.mem_range.mp hj
          show 2 * s + 2 + 2 * j ≠ 0
          omega)]
  rw [foldl_rows_ne _ (fun j => 2 * j + 1)
        (fun g j r' h => getElem?_setLast_ne g _ h) _ 0
        (fun j hj => by
          have := List.mem_range.mp hj
          show 2 * j + 1 ≠ 0
          omega)]
  rw [List.getElem?_set_self']
  rw [List.getElem?_map]
  rw [show lengths s ++ (lengths s).reverse = rowLengths s from rfl, rowLengths_getElem?]
  rw [if_pos (show 0 < 4 * s + 2 by omega)]
  simp

/-- Odd rows of the upper half: a right frame slot, empty interior, a left
frame slot. -/
theorem init_row_oddUp (board : List Face) (s j0 : Nat) (hs : 1 ≤ s)
    (hb : board.length = 6 * s) (hj : j0 < s) :
    (init_solution board)[2 * j0 + 1]? =
      some (((List.replicate (s + j0 + 2) (none : Option Tile)).set (s + j0 + 1)
          (some (frameL (board.getD (s + j0) default)))).set 0
          (some (frameR (board.getD (6 * s - 1 - j0) default)))) := by
  have hq : board.length / 6 = s := by omega
  simp only [init_solution]
  simp only [hq]
  rw [foldl_rows_hit _ (fun j => 2 * s - 1 - 2 * j)
        (fun j row => row.set 0 (some (frameR (board.getD (5 * s + j) default))))
        (fun g j r' h => getElem?_setCell_ne g 0 _ h)
        (fun g j r' hr => by subst hr; exact getElem?_setCell_self g _ 0 _)
        s (s - 1 - j0) (2 * j0 + 1) (by omega)
        (by show 2 * s - 1 - 2 * (s - 1 - j0) = 2 * j0 + 1; omega)
        (fun j hj2 he => by
          have : 2 * s - 1 - 2 * j = 2 * j0 + 1 := he
          omega)]
  rw [foldl_rows_ne _ (fun j => 4 * s - 2 * j)
        (fun g j r' h => getElem?_setCell_ne g 0 _ h) _ (2 * j0 + 1)
        (fun j hj2 => by
          have := List.mem_range.mp hj2
          show 4 * s - 2 * j ≠ 2 * j0 + 1
          omega)]
  rw [List.getElem?_set_ne (show 4 * s + 1 ≠ 2 * j0 + 1 by omega)]
  rw [foldl_rows_ne _ (fun j => 2 * s + 2 + 2 * j)
        (fun g j r' h => getElem?_setLast_ne g _ h) _ (2 * j0 + 1)
        (fun j hj2 => by
          have := List.mem_range.mp hj2
          show 2 * s + 2 + 2 * j ≠ 2 * j0 + 1
          omega)]
  rw [foldl_rows_hit _ (fun j => 2 * j + 1)
        (fun j row => row.set (row.length - 1) (some (frameL (board.getD (s + j) default))))
        (fun g j r' h => getElem?_setLast_ne g _ h)
        (fun g j r' hr => by subst hr; exact getElem?_setLast_self g _ _)
        s j0 (2 * j0 + 1) hj rfl
        (fun j hj2 he => by
          have : 2 * j + 1 = 2 * j0 + 1 := he
          omega)]
  rw [List.getElem?_set_ne (show (0 : Nat) ≠ 2 * j0 + 1 by omega)]
  rw [List.getElem?_map]
  rw [show lengths s ++ (lengths s).reverse = rowLengths s from rfl, rowLengths_getElem?]
  rw [if_pos (show 2 * j0 + 1 < 4 * s + 2 by omega)]
  rw [rowLen_oddUp hj]
  simp only [Option.map_some']
  rw [show 5 * s + (s - 1 - j0) = 6 * s - 1 - j0 from by omega]
  rw [List.length_replicate]
  rw [show s + j0 + 2 - 1 = s + j0 + 1 from by omega]

/-- Even rows of the upper half (including the waist row `2s`): all empty. -/
theorem init_row_evenUp (board : List Face) (s j0 : Nat) (hs : 1 ≤ s)
    (hb : board.length = 6 * s) (hj : j0 < s) :
    (init_solution board)[2 * j0 + 2]? =
      some (List.replicate (s + j0 + 1) (none : Option Tile)) := by
  have hq : board.length / 6 = s := by omega
  simp only [init_solution]
  simp only [hq]
  rw [foldl_rows_ne _ (fun j => 2 * s - 1 - 2 * j)
        (fun g j r' h => getElem?_setCell_ne g 0 _ h) _ (2 * j0 + 2)
        (fun j hj2 => by
          have := List.mem_range.mp hj2
          show 2 * s - 1 - 2 * j ≠ 2 * j0 + 2
          omega)]
  rw [foldl_rows_ne _ (fun j => 4 * s - 2 * j)
        (fun g j r' h => getElem?_setCell_ne g 0 _ h) _ (2 * j0 + 2)
        (fun j hj2 => by
          have := List.mem_range.mp hj2
          show 4 * s - 2 * j ≠ 2 * j0 + 2
          omega)]
  rw [List.getElem?_set_ne (show 4 * s + 1 ≠ 2 * j0 + 2 by omega)]
  rw [foldl_rows_ne _ (fun j => 2 * s + 2 + 2 * j)
        (fun g j r' h => getElem?_setLast_ne g _ h) _ (2 * j0 + 2)
        (fun j hj2 => by
          have := List.mem_range.mp hj2
          show 2 * s + 2 + 2 * j ≠ 2 * j0 + 2
          omega)]
  rw [foldl_rows_ne _ (fun j => 2 * j + 1)
        (fun g j r' h => getElem?_setLast_ne g _ h) _ (2 * j0 + 2)
        (fun j hj2 => by
          have := List.mem_range.mp hj2
          show 2 * j + 1 ≠ 2 * j0 + 2
          omega)]
  rw [List.getElem?_set_ne (show (0 : Nat) ≠ 2 * j0 + 2 by omega)]
  rw [List.getElem?_map]
  rw [show lengths s ++ (lengths s).reverse = rowLengths s from rfl, rowLengths_getElem?]
  rw [if_pos (show 2 * j0 + 2 < 4 * s + 2 by omega)]
  rw [rowLen_evenUp hj]
  rfl

/-- Odd rows of the lower half (including the row below the waist): all
empty. -/
theorem init_row_oddLow (board : List Face) (s j0 : Nat) (hs : 1 ≤ s)
    (hb : board.length = 6 * s) (hj : j0 < s) :
    (init_solution board)[2 * s + 1 + 2 * j0]? =
      some (List.replicate (2 * s - j0) (none : Option Tile)) := by
  have hq : board.length / 6 = s := by omega
  simp only [init_solution]
  simp only [hq]
  rw [foldl_rows_ne _ (fun j => 2 * s - 1 - 2 * j)
        (fun g j r' h => getElem?_setCell_ne g 0 _ h) _ (2 * s + 1 + 2 * j0)
        (fun j hj2 => by
          have := List.mem_range.mp hj2
          show 2 * s - 1 - 2 * j ≠ 2 * s + 1 + 2 * j0
          omega)]
  rw [foldl_rows_ne _ (fun j => 4 * s - 2 * j)
        (fun g j r' h => getElem?_setCell_ne g 0 _ h) _ (2 * s + 1 + 2 * j0)
        (fun j hj2 => by
          have := List.mem_range.mp hj2
          show 4 * s - 2 * j ≠ 2 * s + 1 + 2 * j0
          omega)]
  rw [List.getElem?_set_ne (show 4 * s + 1 ≠ 2 * s + 1 + 2 * j0 by omega)]
  rw [foldl_rows_ne _ (fun j => 2 * s + 2 + 2 * j)
        (fun g j r' h => getElem?_setLast_ne g _ h) _ (2 * s + 1 + 2 * j0)
        (fun j hj2 => by
          have := List.mem_range.mp hj2
          show 2 * s + 2 + 2 * j ≠ 2 * s + 1 + 2 * j0
          omega)]
  rw [foldl_rows_ne _ (fun j => 2 * j + 1)
        (fun g j r' h => getElem?_setLast_ne g _ h) _ (2 * s + 1 + 2 * j0)
        (fun j hj2 => by
          have := List.mem_range.mp hj2
          show 2 * j + 1 ≠ 2 * s + 1 + 2 * j0
          omega)]
  rw [List.getElem?_set_ne (show (0 : Nat) ≠ 2 * s + 1 + 2 * j0 by omega)]
  rw [List.getElem?_map]
  rw [show lengths s ++ (lengths s).reverse = rowLengths s from rfl, rowLengths_getElem?]
  rw [if_pos (show 2 * s + 1 + 2 * j0 < 4 * s + 2 by omega)]
  rw [rowLen_oddLow hj]
  rfl

/-- Even rows of the strict lower half: a left frame slot, empty interior, a
right frame slot. -/
theorem init_row_evenLow (board : List Face) (s j0 : Nat) (hs : 1 ≤ s)
    (hb : board.length = 6 * s) (hj : j0 < s) :
    (init_solution board)[2 * s + 2 + 2 * j0]? =
      some (((List.replicate (2 * s + 1 - j0) (none : Option Tile)).set (2 * s - j0)
          (some (frameR (board.getD (2 * s + j0) default)))).set 0
          (some (frameL (board.getD (5 * s - 1 - j0) default)))) := by
  have hq : board.length / 6 = s := by omega
  simp only [init_solution]
  simp only [hq]
  rw [foldl_rows_ne _ (fun j => 2 * s - 1 - 2 * j)
        (fun g j r' h => getElem?_setCell_ne g 0 _ h) _ (2 * s + 2 + 2 * j0)
        (fun j hj2 => by
          have := List.mem_range.mp hj2
          show 2 * s - 1 - 2 * j ≠ 2 * s + 2 + 2 * j0
          omega)]
  rw [foldl_rows_hit _ (fun j => 4 * s - 2 * j)
        (fun j row => row.set 0 (some (frameL (board.getD (4 * s + j) default))))
        (fun g j r' h => getElem?_setCell_ne g 0 _ h)
        (fun g j r' hr => by subst hr; exact getElem?_setCell_self g _ 0 _)
        s (s - 1 - j0) (2 * s + 2 + 2 * j0) (by omega)
        (by show 4 * s - 2 * (s - 1 - j0) = 2 * s + 2 + 2 * j0; omega)
        (fun j hj2 he => by
          have : 4 * s - 2 * j = 2 * s + 2 + 2 * j0 := he
          omega)]
  rw [List.getElem?_set_ne (show 4 * s + 1 ≠ 2 * s + 2 + 2 * j0 by omega)]
  rw [foldl_rows_hit _ (fun j => 2 * s + 2 + 2 * j)
        (fun j row => row.set (row.length - 1)
          (some (frameR (board.getD (2 * s + j) default))))
        (fun g j r' h => getElem?_setLast_ne g _ h)
        (fun g j r' hr => by subst hr; exact getElem?_setLast_self g _ _)
        s j0 (2 * s + 2 + 2 * j0) hj rfl
        (fun j hj2 he => by
          have : 2 * s + 2 + 2 * j = 2 * s + 2 + 2 * j0 := he
          omega)]
  rw [foldl_rows_ne _ (fun j => 2 * j + 1)
        (fun g j r' h => getElem?_setLast_ne g _ h) _ (2 * s + 2 + 2 * j0)
        (fun j hj2 => by
          have := List.mem_range.mp hj2
          show 2 * j + 1 ≠ 2 * s + 2 + 2 * j0
          omega)]
  rw [List.getElem?_set_ne (show (0 : Nat) ≠ 2 * s + 2 + 2 * j0 by omega)]
  rw [List.getElem?_map]
  rw [show lengths s ++ (lengths s).reverse = rowLengths s from rfl, rowLengths_getElem?]
  rw [if_pos (show 2 * s + 2 + 2 * j0 < 4 * s + 2 by omega)]
  rw [rowLen_evenLow hj]
  simp only [Option.map_some']
  rw [show 4 * s + (s - 1 - j0) = 5 * s - 1 - j0 from by omega]
  rw [List.length_replicate]
  rw [show 2 * s + 1 - j0 - 1 = 2 * s - j0 from by omega]

/-- The bottom frame row. -/
theorem init_row_bottom (board : List Face) (s : Nat) (hs : 1 ≤ s)
    (hb : board.length = 6 * s) :
    (init_solution board)[4 * s + 1]? =
      some ((((board.drop (3 * s)).take s).reverse).map (fun f => some (frameB f))) := by
  have hq : board.length / 6 = s := by omega
  simp only [init_solution]
  simp only [hq]
  rw [foldl_rows_ne _ (fun j => 2 * s - 1 - 2 * j)
        (fun g j r' h => getElem?_setCell_ne g 0 _ h) _ (4 * s + 1)
        (fun j hj2 => by
          have := List.mem_range.mp hj2
          show 2 * s - 1 - 2 * j ≠ 4 * s + 1
          omega)]
  rw [foldl_rows_ne _ (fun j => 4 * s - 2 * j)
        (fun g j r' h => getElem?_setCell_ne g 0 _ h) _ (4 * s + 1)
        (fun j hj2 => by
          have := List.mem_range.mp hj2
          show 4 * s - 2 * j ≠ 4 * s + 1
          omega)]
  rw [List.getElem?_set_self']
  rw [foldl_rows_ne _ (fun j => 2 * s + 2 + 2 * j)
        (fun g j r' h => getElem?_setLast_ne g _ h) _ (4 * s + 1)
        (fun j hj2 => by
          have := List.mem_range.mp hj2
          show 2 * s + 2 + 2 * j ≠ 4 * s + 1
          omega)]
  rw [foldl_rows_ne _ (fun j => 2 * j + 1)
        (fun g j r' h => getElem?_setLast_ne g _ h) _ (4 * s + 1)
        (fun j hj2 => by
          have := List.mem_range.mp hj2
          show 2 * j + 1 ≠ 4 * s + 1
          omega)]
  rw [List.getElem?_set_ne (show (0 : Nat) ≠ 4 * s + 1 by omega)]
  rw [List.getElem?_map]
  rw [show lengths s ++ (lengths s).reverse = rowLengths s from rfl, rowLengths_getElem?]
  rw [if_pos (show 4 * s + 1 < 4 * s + 2 by omega)]
  simp

/-- Rows past the bottom do not exist. -/
theorem init_row_oob (board : List Face) (s r : Nat) (hs : 1 ≤ s)
    (hb : board.length = 6 * s) (hr : 4 * s + 2 ≤ r) :
    (init_solution board)[r]? = none := by
  have hq : board.length / 6 = s := by omega
  simp only [init_solution]
  simp only [hq]
  rw [foldl_rows_ne _ (fun j => 2 * s - 1 - 2 * j)
        (fun g j r' h => getElem?_setCell_ne g 0 _ h) _ r
        (fun j hj2 => by
          have := List.mem_range.mp hj2
          show 2 * s - 1 - 2 * j ≠ r
          omega)]
  rw [foldl_rows_ne _ (fun j => 4 * s - 2 * j)
        (fun g j r' h => getElem?_setCell_ne g 0 _ h) _ r
        (fun j hj2 => by
          have := List.mem_range.mp hj2
          show 4 * s - 2 * j ≠ r
          omega)]
  rw [List.getElem?_set_ne (show 4 * s + 1 ≠ r by omega)]
  rw [foldl_rows_ne _ (fun j => 2 * s + 2 + 2 * j)
        (fun g j r' h => getElem?_setLast_ne g _ h) _ r
        (fun j hj2 => by
          have := List.mem_range.mp hj2
          show 2 * s + 2 + 2 * j ≠ r
          omega)]
  rw [foldl_rows_ne _ (fun j => 2 * j + 1)
        (fun g j r' h => getElem?_setLast_ne g _ h) _ r
        (fun j hj2 => by
          have := List.mem_range.mp hj2
          show 2 * j + 1 ≠ r
          omega)]
  rw [List.getElem?_set_ne (show (0 : Nat) ≠ r by omega)]
  rw [List.getElem?_map]
  rw [show lengths s ++ (lengths s).reverse = rowLengths s from rfl, rowLengths_getElem?]
  rw [if_neg (show ¬(r < 4 * s + 2) by omega)]
  rfl

/-! ## Structural form of the frame rows and empty-slot counting -/

/-- Setting the last slot of an all-empty row splits it off. -/
theorem replicate_set_last (n : Nat) (v : Option Tile) :
    (List.replicate (n + 1) (none : Option Tile)).set n v =
      List.replicate n (none : Option Tile) ++ [v] := by
  induction n with
  | zero => rfl
  | succ n ih =>
    rw [List.replicate_succ, List.set_cons_succ, ih]
    rfl

/-- Structural form of a frame row with both end slots set. -/
theorem row_shape (n : Nat) (a b : Option Tile) :
    ((List.replicate (n + 2) (none : Option Tile)).set (n + 1) a).set 0 b =
      b :: (List.replicate n (none : Option Tile) ++ [a]) := by
  rw [List.replicate_succ, List.set_cons_succ, replicate_set_last, List.set_cons_zero]

/-- Positions of empty slots in an all-empty row. -/
theorem nonesRow_replicate (n : Nat) :
    (nonesRow (List.replicate n (none : Option Tile))).length = n := by
  induction n with
  | zero => rfl
  | succ n ih => simp [List.replicate_succ, nonesRow, ih]

/-- A row of occupied slots has no empty positions. -/
theorem nonesRow_map_some {α : Type} (l : List α) (f : α → Tile) :
    nonesRow (l.map (fun x => some (f x))) = [] := by
  induction l with
  | nil => rfl
  | cons x l ih => simp [nonesRow, ih]

/-- Empty positions of a concatenation. -/
theorem nonesRow_append (l₁ l₂ : List (Option Tile)) :
    nonesRow (l₁ ++ l₂) = nonesRow l₁ ++ (nonesRow l₂).map (· + l₁.length) := by
  induction l₁ with
  | nil => simp [nonesRow]
  | cons x l ih =>
    cases x with
    | none => simp [nonesRow, ih, List.map_map, Function.comp_def, Nat.add_assoc, Nat.add_comm]
    | some t => simp [nonesRow, ih, List.map_map, Function.comp_def, Nat.add_assoc, Nat.add_comm]

/-- Number of empty slots of a grid, row by row. -/
theorem nones_length (g : Grid) :
    (nones g).length = (g.map (fun row => (nonesRow row).length)).sum := by
  induction g with
  | nil => rfl
  | cons row rest ih => simp [nones, ih]

/-- A mapped sum over a list read through `getD`. -/
theorem map_sum_getD (g : Grid) (f : List (Option Tile) → Nat) :
    (g.map f).sum = ∑ r ∈ Finset.range g.length, f (g.getD r []) := by
  induction g with
  | nil => rfl
  | cons row rest ih =>
    rw [List.map_cons, List.sum_cons, ih, List.length_cons, Finset.sum_range_succ']
    simp [List.getD_cons_succ, Nat.add_comm]

/-- Row `r` of the initial board read with a default. -/
theorem init_getD (board : List Face) (s r : Nat) (row : List (Option Tile))
    (h : (init_solution board)[r]? = some row) :
    (init_solution board).getD r [] = row := by
  simp [List.getD_eq_getElem?_getD, h]

/-- Per-row empty-slot count of the initial board. -/
theorem init_row_nones (board : List Face) (s r : Nat) (hs : 1 ≤ s)
    (hb : board.length = 6 * s) (hr : r < 4 * s + 2) :
    (nonesRow ((init_solution board).getD r [])).length =
      if r = 0 ∨ r = 4 * s + 1 then 0
      else if (r % 2 = 1 ∧ r < 2 * s + 1) ∨ (r % 2 = 0 ∧ 2 * s + 2 ≤ r) then rowLen s r - 2
      else rowLen s r := by
  rcases row_classes hs hr with h0 | ⟨j, hj, hrr⟩ | ⟨j, hj, hrr⟩ | ⟨j, hj, hrr⟩ |
    ⟨j, hj, hrr⟩ | h1
  · subst h0
    rw [init_getD board s _ _ (init_row_top board s hs hb)]
    rw [nonesRow_map_some]
    simp
  · subst hrr
    rw [init_getD board s _ _ (init_row_oddUp board s j hs hb hj)]
    rw [if_neg (show ¬(2 * j + 1 = 0 ∨ 2 * j + 1 = 4 * s + 1) by omega)]
    rw [if_pos (show ((2 * j + 1) % 2 = 1 ∧ 2 * j + 1 < 2 * s + 1) ∨
          ((2 * j + 1) % 2 = 0 ∧ 2 * s + 2 ≤ 2 * j + 1) by omega)]
    rw [rowLen_oddUp hj, row_shape]
    simp [nonesRow, nonesRow_append, nonesRow_replicate]
  · subst hrr
    rw [init_getD board s _ _ (init_row_evenUp board s j hs hb hj)]
    rw [if_neg (show ¬(2 * j + 2 = 0 ∨ 2 * j + 2 = 4 * s + 1) by omega)]
    rw [if_neg (show ¬(((2 * j + 2) % 2 = 1 ∧ 2 * j + 2 < 2 * s + 1) ∨
          ((2 * j + 2) % 2 = 0 ∧ 2 * s + 2 ≤ 2 * j + 2)) by omega)]
    rw [nonesRow_replicate, rowLen_evenUp hj]
  · subst hrr
    rw [init_getD board s _ _ (init_row_oddLow board s j hs hb hj)]
    rw [if_neg (show ¬(2 * s + 1 + 2 * j = 0 ∨ 2 * s + 1 + 2 * j = 4 * s + 1) by omega)]
    rw [if_neg (show ¬(((2 * s + 1 + 2 * j) % 2 = 1 ∧ 2 * s + 1 + 2 * j < 2 * s + 1) ∨
          ((2 * s + 1 + 2 * j) % 2 = 0 ∧ 2 * s + 2 ≤ 2 * s + 1 + 2 * j)) by omega)]
    rw [nonesRow_replicate, rowLen_oddLow hj]
  · subst hrr
    rw [init_getD board s _ _ (init_row_evenLow board s j hs hb hj)]
    rw [if_neg (show ¬(2 * s + 2 + 2 * j = 0 ∨ 2 * s + 2 + 2 * j = 4 * s + 1) by omega)]
    rw [if_pos (show ((2 * s + 2 + 2 * j) % 2 = 1 ∧ 2 * s + 2 + 2 * j < 2 * s + 1) ∨
          ((2 * s + 2 + 2 * j) % 2 = 0 ∧ 2 * s + 2 ≤ 2 * s + 2 + 2 * j) by omega)]
    rw [rowLen_evenLow hj]
    rw [show 2 * s + 1 - j = (2 * s - 1 - j) + 2 from by omega,
        show 2 * s - j = (2 * s - 1 - j) + 1 from by omega]
    rw [row_shape]
    simp [nonesRow, nonesRow_append, nonesRow_replicate]
  · subst h1
    rw [init_getD board s _ _ (init_row_bottom board s hs hb)]
    rw [nonesRow_map_some]
    simp


/-- A list-range sum as a Finset-range sum. -/
theorem list_sum_range (f : Nat → Nat) (n : Nat) :
    ((List.range n).map f).sum = ∑ i ∈ Finset.range n, f i := by
  induction n with
  | zero => rfl
  | succ n ih => rw [List.range_succ, List.map_append, List.sum_append, ih,
      Finset.sum_range_succ]; simp

/-- Sum of the per-row empty-slot counts over one half of the board. -/
theorem half_nones_sum (s : Nat) (hs : 1 ≤ s) (f : Nat → Nat)
    (hf : ∀ r, r < 2 * s + 1 →
      f r = if r = 0 then 0
        else if r % 2 = 1 then rowLen s r - 2 else rowLen s r) :
    ∑ r ∈ Finset.range (2 * s + 1), f r = 3 * s ^ 2 := by
  have key : ∀ t, t ≤ s → ∑ r ∈ Finset.range (2 * t + 1), f r = 2 * s * t + t ^ 2 := by
    intro t
    induction t with
    | zero =>
      intro _
      rw [show 2 * 0 + 1 = 1 from rfl, Finset.sum_range_one, hf 0 (by omega)]
      simp
    | succ t ih =>
      intro ht
      rw [show 2 * (t + 1) + 1 = (2 * t + 1) + 1 + 1 from by omega,
        Finset.sum_range_succ, Finset.sum_range_succ, ih (by omega)]
      rw [hf (2 * t + 1) (by omega), hf (2 * t + 2) (by omega)]
      rw [if_neg (show ¬(2 * t + 1 = 0) by omega), if_pos (show (2 * t + 1) % 2 = 1 by omega)]
      rw [if_neg (show ¬(2 * t + 2 = 0) by omega), if_neg (show ¬((2 * t + 2) % 2 = 1) by omega)]
      rw [rowLen_oddUp (show t < s by omega), rowLen_evenUp (show t < s by omega)]
      ring_nf
      omega
  have := key s (le_refl s)
  calc ∑ r ∈ Finset.range (2 * s + 1), f r = 2 * s * s + s ^ 2 := this
    _ = 3 * s ^ 2 := by ring

/-- The initial board has exactly `6 s^2` empty slots. -/
theorem init_nones_count (board : List Face) (s : Nat) (hs : 1 ≤ s)
    (hb : board.length = 6 * s) :
    (nones (init_solution board)).length = 6 * s ^ 2 := by
  rw [nones_length, map_sum_getD, init_length board s hb]
  have hsplit : 4 * s + 2 = (2 * s + 1) + (2 * s + 1) := by omega
  rw [hsplit, Finset.sum_range_add]
  have hcount : ∀ r, r < 4 * s + 2 →
      (nonesRow ((init_solution board).getD r [])).length =
        if r = 0 ∨ r = 4 * s + 1 then 0
        else if (r % 2 = 1 ∧ r < 2 * s + 1) ∨ (r % 2 = 0 ∧ 2 * s + 2 ≤ r) then rowLen s r - 2
        else rowLen s r := fun r hr => init_row_nones board s r hs hb hr
  have h1 : ∑ r ∈ Finset.range (2 * s + 1),
      (nonesRow ((init_solution board).getD r [])).length = 3 * s ^ 2 := by
    apply half_nones_sum s hs
    intro r hr
    rw [hcount r (by omega)]
    rcases eq_or_ne r 0 with h0 | h0
    · simp [h0]
    · rw [if_neg (show ¬(r = 0 ∨ r = 4 * s + 1) by omega), if_neg h0]
      rcases Nat.mod_two_eq_zero_or_one r with hp | hp
      · rw [if_neg (show ¬((r % 2 = 1 ∧ r < 2 * s + 1) ∨ (r % 2 = 0 ∧ 2 * s + 2 ≤ r)) by omega),
          if_neg (show ¬(r % 2 = 1) by omega)]
      · rw [if_pos (show (r % 2 = 1 ∧ r < 2 * s + 1) ∨ (r % 2 = 0 ∧ 2 * s + 2 ≤ r) by omega),
          if_pos hp]
  have h2 : ∑ r ∈ Finset.range (2 * s + 1),
      (nonesRow ((init_solution board).getD ((2 * s + 1) + r) [])).length = 3 * s ^ 2 := by
    rw [← Finset.sum_range_reflect]
    apply half_nones_sum s hs
    intro r hr
    rw [show (2 * s + 1) + (2 * s + 1 - 1 - r) = 4 * s + 1 - r from by omega]
    rw [hcount (4 * s + 1 - r) (by omega)]
    rcases eq_or_ne r 0 with h0 | h0
    · rw [if_pos (show 4 * s + 1 - r = 0 ∨ 4 * s + 1 - r = 4 * s + 1 by omega), if_pos h0]
    · rw [if_neg (show ¬(4 * s + 1 - r = 0 ∨ 4 * s + 1 - r = 4 * s + 1) by omega), if_neg h0]
      have hmirror : rowLen s (4 * s + 1 - r) = rowLen s r := by
        unfold rowLen
        rw [show 4 * s + 1 - (4 * s + 1 - r) = r from by omega]
        rcases Nat.lt_or_ge r (2 * s + 1) with hlt | hge
        · rw [if_neg (show ¬(4 * s + 1 - r ≤ 2 * s) by omega), if_pos (show r ≤ 2 * s by omega)]
        · rw [if_pos (show 4 * s + 1 - r ≤ 2 * s by omega), if_neg (show ¬(r ≤ 2 * s) by omega)]
      rcases Nat.mod_two_eq_zero_or_one r with hp | hp
      · rw [if_neg (show ¬(((4 * s + 1 - r) % 2 = 1 ∧ 4 * s + 1 - r < 2 * s + 1) ∨
              ((4 * s + 1 - r) % 2 = 0 ∧ 2 * s + 2 ≤ 4 * s + 1 - r)) by omega),
          if_neg (show ¬(r % 2 = 1) by omega), hmirror]
      · rw [if_pos (show ((4 * s + 1 - r) % 2 = 1 ∧ 4 * s + 1 - r < 2 * s + 1) ∨
              ((4 * s + 1 - r) % 2 = 0 ∧ 2 * s + 2 ≤ 4 * s + 1 - r) by omega),
          if_pos hp, hmirror]
  rw [h1, h2]
  ring

/-! ## Claim C6 -/

/-- Claim C6: for every order `s ≥ 1` the initial board has exactly `6 s^2`
empty interior slots, and `spaces(s)` returns `6 s^2`. -/
theorem init_spaces_count : ∀ (s : Nat) (board : List Face), 1 ≤ s →
    board.length = 6 * s →
    (nones (init_solution board)).length = 6 * s ^ 2 ∧
    spaces (s : Int) = 6 * (s : Int) ^ 2 := by
  intro s board hs hb
  exact ⟨init_nones_count board s hs hb, rfl⟩

/-- Witness for claim C6 at the order-1 fixture. -/
theorem init_spaces_count_witness : 1 ≤ 1 ∧ fixB.length = 6 * 1 ∧
    ((nones (init_solution fixB)).length = 6 * 1 ^ 2 ∧
      spaces ((1 : Nat) : Int) = 6 * ((1 : Nat) : Int) ^ 2) :=
  ⟨by decide, by decide, init_spaces_count 1 fixB (by decide) (by decide)⟩

/-- Claim C4, amended: board construction fails iff the boundary length is
not a multiple of 6 or a face code is malformed; an accepted boundary of
length `6 s` is placed as the frame of a board with `4 s + 2` rows. -/
theorem check_board_iff :
    (∀ board : List String, check_board board = true ↔
      (board.length % 6 = 0 ∧ ∀ c ∈ board, faceOk c = true)) ∧
    (∀ (faces : List Face) (s : Nat), faces.length = 6 * s →
      (init_solution faces).length = 4 * s + 2) := by
  constructor
  · intro board
    simp [check_board, List.all_eq_true]
  · intro faces s hb
    exact init_length faces s hb

/-! ## Normal forms of the adjacency function -/

theorem adj_spaces_A (s q d : Int) (h1 : q % 2 = 1) (h2 : q < 2 * s) :
    adj_spaces s q d =
      [(q - 1, d - 1, Edge.base), (q + 1, d, Edge.right), (q + 1, d - 1, Edge.left)] := by
  simp only [adj_spaces, h1]
  norm_num
  all_goals try split_ifs
  all_goals omega

theorem adj_spaces_B1 (s q d : Int) (h1 : q % 2 = 0) (h2 : q < 2 * s) :
    adj_spaces s q d =
      [(q + 1, d + 1, Edge.base), (q - 1, d, Edge.right), (q - 1, d + 1, Edge.left)] := by
  simp only [adj_spaces, h1]
  norm_num
  all_goals try split_ifs
  all_goals omega

theorem adj_spaces_B2 (s d : Int) (h1 : (2 * s) % 2 = 0) :
    adj_spaces s (2 * s) d =
      [(2 * s + 1, d, Edge.base), (2 * s - 1, d, Edge.right),
        (2 * s - 1, d + 1, Edge.left)] := by
  simp only [adj_spaces, h1]
  norm_num
  all_goals try split_ifs
  all_goals omega

theorem adj_spaces_C1 (s d : Int) (h1 : (2 * s + 1) % 2 = 1) :
    adj_spaces s (2 * s + 1) d =
      [(2 * s, d, Edge.base), (2 * s + 2, d + 1, Edge.right),
        (2 * s + 2, d, Edge.left)] := by
  simp only [adj_spaces, h1]
  norm_num
  all_goals try split_ifs
  all_goals omega

theorem adj_spaces_C2 (s q d : Int) (h1 : q % 2 = 1) (h2 : 2 * s + 3 ≤ q) :
    adj_spaces s q d =
      [(q - 1, d + 1, Edge.base), (q + 1, d + 1, Edge.right), (q + 1, d, Edge.left)] := by
  simp only [adj_spaces, h1]
  norm_num
  all_goals try split_ifs
  all_goals omega

theorem adj_spaces_D (s q d : Int) (h1 : q % 2 = 0) (h2 : 2 * s + 2 ≤ q) :
    adj_spaces s q d =
      [(q + 1, d - 1, Edge.base), (q - 1, d - 1, Edge.right), (q - 1, d, Edge.left)] := by
  simp only [adj_spaces, h1]
  norm_num
  all_goals try split_ifs
  all_goals omega

/-! ## Cell-level characterization of the initial board -/

/-- Entry `c` of a frame row with both end slots occupied. -/
theorem frame_row_getElem? (n : Nat) (a b : Tile) (c : Nat) :
    ((some b : Option Tile) :: (List.replicate n (none : Option Tile) ++ [some a]))[c]? =
      if c = 0 then some (some b) else if c < n + 1 then some none
      else if c = n + 1 then some (some a) else none := by
  cases c with
  | zero => simp
  | succ m =>
    rw [List.getElem?_cons_succ]
    rcases Nat.lt_or_ge m n with h | h
    · rw [List.getElem?_append_left (by simpa using h), List.getElem?_replicate,
        if_pos h, if_neg (by omega), if_pos (by omega)]
    · rw [List.getElem?_append_right (by simpa using h), List.length_replicate]
      rcases eq_or_ne m n with he | he
      · subst he
        rw [Nat.sub_self]
        rw [if_neg (by omega), if_neg (by omega), if_pos (by omega)]
        rfl
      · rw [List.getElem?_eq_none (by simp; omega)]
        rw [if_neg (by omega), if_neg (by omega), if_neg (by omega)]

/-- An all-empty row read at `c`. -/
theorem replicate_row_getElem? (n c : Nat) :
    (List.replicate n (none : Option Tile))[c]? = if c < n then some none else none :=
  List.getElem?_replicate

/-- The empty slots of the initial board are exactly the interior
coordinates. -/
theorem init_cell_interior (board : List Face) (s r c : Nat) (hs : 1 ≤ s)
    (hb : board.length = 6 * s) :
    getCell (init_solution board) r c = some none ↔ Interior s r c := by
  rcases Nat.lt_or_ge r (4 * s + 2) with hr | hr
  · rcases row_classes hs hr with h0 | ⟨j, hj, hrr⟩ | ⟨j, hj, hrr⟩ | ⟨j, hj, hrr⟩ |
      ⟨j, hj, hrr⟩ | h1
    · subst h0
      rw [getCell, init_row_top board s hs hb, Option.some_bind, List.getElem?_map]
      unfold Interior
      rcases hcell : (board.take s)[c]? with _ | f <;> simp <;> omega
    · subst hrr
      rw [getCell, init_row_oddUp board s j hs hb hj, Option.some_bind, row_shape,
        frame_row_getElem?]
      unfold Interior
      rw [rowLen_oddUp hj]
      split_ifs <;> simp <;> omega
    · subst hrr
      rw [getCell, init_row_evenUp board s j hs hb hj, Option.some_bind,
        replicate_row_getElem?]
      unfold Interior
      rw [rowLen_evenUp hj]
      split_ifs <;> simp <;> omega
    · subst hrr
      rw [getCell, init_row_oddLow board s j hs hb hj, Option.some_bind,
        replicate_row_getElem?]
      unfold Interior
      rw [rowLen_oddLow hj]
      split_ifs <;> simp <;> omega
    · subst hrr
      rw [getCell, init_row_evenLow board s j hs hb hj, Option.some_bind,
        show 2 * s + 1 - j = (2 * s - 1 - j) + 2 from by omega,
        show 2 * s - j = (2 * s - 1 - j) + 1 from by omega, row_shape,
        frame_row_getElem?]
      unfold Interior
      rw [rowLen_evenLow hj]
      split_ifs <;> simp <;> omega
    · subst h1
      rw [getCell, init_row_bottom board s hs hb, Option.some_bind, List.getElem?_map]
      unfold Interior
      rcases hcell : (((board.drop (3 * s)).take s).reverse)[c]? with _ | f <;>
        simp <;> omega
  · rw [getCell, init_row_oob board s r hs hb hr, Option.none_bind]
    unfold Interior
    simp
    omega

/-- Every in-bounds non-interior slot of the initial board is a frame slot
holding a face at its `frameEdge` position. -/
theorem init_cell_frame (board : List Face) (s r c : Nat) (hs : 1 ≤ s)
    (hb : board.length = 6 * s) (hr : r < 4 * s + 2) (hc : c < rowLen s r)
    (hni : ¬ Interior s r c) :
    ∃ t : Tile, getCell (init_solution board) r c = some (some t) ∧
      (t.get (frameEdge s r c)).isSome := by
  rcases row_classes hs hr with h0 | ⟨j, hj, hrr⟩ | ⟨j, hj, hrr⟩ | ⟨j, hj, hrr⟩ |
    ⟨j, hj, hrr⟩ | h1
  · subst h0
    rw [rowLen_top] at hc
    have hlen : c < (board.take s).length := by
      rw [List.length_take]
      omega
    refine ⟨frameB ((board.take s)[c]), ?_, ?_⟩
    · rw [getCell, init_row_top board s hs hb, Option.some_bind, List.getElem?_map,
        List.getElem?_eq_getElem hlen]
      rfl
    · rw [frameEdge, if_pos (Or.inl rfl)]
      rfl
  · subst hrr
    rw [rowLen_oddUp hj] at hc
    have hcc : c = 0 ∨ c = s + j + 1 := by
      unfold Interior at hni
      rw [rowLen_oddUp hj] at hni
      by_contra hcon
      exact hni ⟨by omega, by omega, by omega, fun _ => ⟨by omega, by omega⟩⟩
    rcases hcc with hc0 | hcl
    · subst hc0
      refine ⟨frameR (board.getD (6 * s - 1 - j) default), ?_, ?_⟩
      · rw [getCell, init_row_oddUp board s j hs hb hj, Option.some_bind, row_shape,
          frame_row_getElem?, if_pos rfl]
      · rw [frameEdge, if_neg (by omega), if_pos rfl, if_pos (by omega)]
        rfl
    · subst hcl
      refine ⟨frameL (board.getD (s + j) default), ?_, ?_⟩
      · rw [getCell, init_row_oddUp board s j hs hb hj, Option.some_bind, row_shape,
          frame_row_getElem?, if_neg (by omega), if_neg (by omega), if_pos (by omega)]
      · rw [frameEdge, if_neg (by omega), if_neg (by omega), if_pos (by omega)]
        rfl
  · subst hrr
    exact absurd (by
      unfold Interior
      rw [rowLen_evenUp hj]
      rw [rowLen_evenUp hj] at hc
      exact ⟨by omega, by omega, by omega, fun hcon => by omega⟩) hni
  · subst hrr
    exact absurd (by
      unfold Interior
      rw [rowLen_oddLow hj]
      rw [rowLen_oddLow hj] at hc
      exact ⟨by omega, by omega, by omega, fun hcon => by omega⟩) hni
  · subst hrr
    rw [rowLen_evenLow hj] at hc
    have hcc : c = 0 ∨ c = 2 * s - j := by
      unfold Interior at hni
      rw [rowLen_evenLow hj] at hni
      by_contra hcon
      exact hni ⟨by omega, by omega, by omega, fun _ => ⟨by omega, by omega⟩⟩
    rcases hcc with hc0 | hcl
    · subst hc0
      refine ⟨frameL (board.getD (5 * s - 1 - j) default), ?_, ?_⟩
      · rw [getCell, init_row_evenLow board s j hs hb hj, Option.some_bind,
          show 2 * s + 1 - j = (2 * s - 1 - j) + 2 from by omega,
          show 2 * s - j = (2 * s - 1 - j) + 1 from by omega, row_shape,
          frame_row_getElem?, if_pos rfl]
      · rw [frameEdge, if_neg (by omega), if_pos rfl, if_neg (by omega)]
        rfl
    · subst hcl
      refine ⟨frameR (board.getD (2 * s + j) default), ?_, ?_⟩
      · rw [getCell, init_row_evenLow board s j hs hb hj, Option.some_bind,
          show 2 * s + 1 - j = (2 * s - 1 - j) + 2 from by omega,
          show 2 * s - j = (2 * s - 1 - j) + 1 from by omega, row_shape,
          frame_row_getElem?, if_neg (by omega), if_neg (by omega), if_pos (by omega)]
      · rw [frameEdge, if_neg (by omega), if_neg (by omega), if_neg (by omega)]
        rfl
  · subst h1
    rw [rowLen_bottom] at hc
    have hlen : c < (((board.drop (3 * s)).take s).reverse).length := by
      rw [List.length_reverse, List.length_take, List.length_drop]
      omega
    refine ⟨frameB ((((board.drop (3 * s)).take s).reverse)[c]), ?_, ?_⟩
    · rw [getCell, init_row_bottom board s hs hb, Option.some_bind, List.getElem?_map,
        List.getElem?_eq_getElem hlen]
      rfl
    · rw [frameEdge, if_pos (Or.inr rfl)]
      rfl

/-! ## Master adjacency geometry -/

/-- Row length of the even rows `0, 2, …, 2s` of the upper half. -/
theorem rowLen_even_le {s j : Nat} (h : j ≤ s) : rowLen s (2 * j) = s + j := by
  unfold rowLen uHalf
  split_ifs <;> first | contradiction | omega

/-- Inner-product membership helper: the first element. -/
theorem mem_triple_head (a : Int × Int × Edge) (b c : Int × Int × Edge) :
    a ∈ [a, b, c] := List.mem_cons_self a [b, c]

/-- Inner-product membership helper: the second element. -/
theorem mem_triple_second (a b c : Int × Int × Edge) :
    b ∈ [a, b, c] := List.mem_cons_of_mem a (List.mem_cons_self b [c])

/-- Inner-product membership helper: the third element. -/
theorem mem_triple_third (a b c : Int × Int × Edge) :
    c ∈ [a, b, c] := List.mem_cons_of_mem a (List.mem_cons_of_mem b (List.mem_cons_self c []))

/-- Master geometry lemma: from any interior slot, each of the three
neighbor triples computed by `adj_spaces` lands inside the board, the
adjacency is symmetric (the neighbor's triple at the same edge points back),
and a non-interior neighbor is queried exactly at its frame-face position. -/
theorem adj_master (s r c : Nat) (hs : 1 ≤ s) (hI : Interior s r c) :
    ∀ x ∈ adj_spaces (s : Int) (r : Int) (c : Int),
      ∃ ar ac : Nat, x.1 = (ar : Int) ∧ x.2.1 = (ac : Int) ∧
        ar < 4 * s + 2 ∧ ac < rowLen s ar ∧
        (((r : Int), (c : Int), x.2.2) ∈ adj_spaces (s : Int) (ar : Int) (ac : Int)) ∧
        (¬ Interior s ar ac → frameEdge s ar ac = x.2.2) := by
  obtain ⟨hr1, hr2, hc3, himp⟩ := hI
  intro x hx
  rcases Nat.mod_two_eq_zero_or_one r with hpar | hpar
  · -- even rows
    rcases Nat.lt_or_ge r (2 * s + 1) with hreg | hreg
    · -- classes B1/B2: r even, 2 <= r <= 2 * s
      obtain ⟨j, hj, rfl⟩ : ∃ j, j < s ∧ r = 2 * j + 2 := ⟨(r - 2) / 2, by omega, by omega⟩
      rw [rowLen_evenUp hj] at hc3
      rcases Nat.lt_or_ge (2 * j + 2) (2 * s) with hq | hq
      · -- B1: r < 2 * s
        rw [adj_spaces_B1 (s : Int) _ _ (by omega) (by omega)] at hx
        simp only [List.mem_cons, List.not_mem_nil, or_false] at hx
        rcases hx with rfl | rfl | rfl
        · -- base neighbor (2j+3, c+1)
          dsimp only
          refine ⟨2 * j + 3, c + 1, by omega, by omega, by omega, ?_, ?_, ?_⟩
          · rw [show 2 * j + 3 = 2 * (j + 1) + 1 from by omega,
              rowLen_oddUp (show j + 1 < s by omega)]
            omega
          · rw [adj_spaces_A (s : Int) _ _ (by omega) (by omega)]
            simp only [List.mem_cons, List.not_mem_nil, or_false, Prod.mk.injEq]
            simp only [reduceCtorEq, and_false, false_or, or_false, and_true]
            omega
          · intro hnI
            exact absurd ⟨by omega, by omega,
              by rw [show 2 * j + 3 = 2 * (j + 1) + 1 from by omega,
                rowLen_oddUp (show j + 1 < s by omega)]; omega,
              fun _ => by rw [show 2 * j + 3 = 2 * (j + 1) + 1 from by omega,
                rowLen_oddUp (show j + 1 < s by omega)]; omega⟩ hnI
        · -- right neighbor (2j+1, c)
          dsimp only
          refine ⟨2 * j + 1, c, by omega, by omega, by omega, ?_, ?_, ?_⟩
          · rw [rowLen_oddUp hj]
            omega
          · rw [adj_spaces_A (s : Int) _ _ (by omega) (by omega)]
            simp only [List.mem_cons, List.not_mem_nil, or_false, Prod.mk.injEq]
            simp only [reduceCtorEq, and_false, false_or, or_false, and_true]
            omega
          · intro hnI
            have hc0 : c = 0 := by
              by_contra hcon
              exact hnI ⟨by omega, by omega, by rw [rowLen_oddUp hj]; omega,
                fun _ => by rw [rowLen_oddUp hj]; omega⟩
            rw [frameEdge, if_neg (by omega), if_pos hc0, if_pos (by omega)]
        · -- left neighbor (2j+1, c+1)
          dsimp only
          refine ⟨2 * j + 1, c + 1, by omega, by omega, by omega, ?_, ?_, ?_⟩
          · rw [rowLen_oddUp hj]
            omega
          · rw [adj_spaces_A (s : Int) _ _ (by omega) (by omega)]
            simp only [List.mem_cons, List.not_mem_nil, or_false, Prod.mk.injEq]
            simp only [reduceCtorEq, and_false, false_or, or_false, and_true]
            omega
          · intro hnI
            have hlast : c + 1 = s + j + 1 := by
              by_contra hcon
              exact hnI ⟨by omega, by omega, by rw [rowLen_oddUp hj]; omega,
                fun _ => by rw [rowLen_oddUp hj]; omega⟩
            rw [frameEdge, if_neg (by omega), if_neg (by omega), if_pos (by omega)]
      · -- B2: r = 2 * s
        rw [show ((2 * j + 2 : Nat) : Int) = 2 * (s : Int) from by omega,
          adj_spaces_B2 (s : Int) _ (by omega)] at hx
        simp only [List.mem_cons, List.not_mem_nil, or_false] at hx
        rcases hx with rfl | rfl | rfl
        · -- base neighbor (2s+1, c)
          dsimp only
          refine ⟨2 * s + 1, c, by omega, by omega, by omega, ?_, ?_, ?_⟩
          · rw [show 2 * s + 1 = 2 * s + 1 + 2 * 0 from by omega,
              rowLen_oddLow (show 0 < s by omega)]
            omega
          · rw [show ((2 * s + 1 : Nat) : Int) = 2 * (s : Int) + 1 from by omega,
              adj_spaces_C1 (s : Int) _ (by omega)]
            simp only [List.mem_cons, List.not_mem_nil, or_false, Prod.mk.injEq]
            simp only [reduceCtorEq, and_false, false_or, or_false, and_true]
            omega
          · intro hnI
            exact absurd ⟨by omega, by omega,
              by rw [show 2 * s + 1 = 2 * s + 1 + 2 * 0 from by omega,
                rowLen_oddLow (show 0 < s by omega)]; omega,
              fun _ => by rw [show 2 * s + 1 = 2 * s + 1 + 2 * 0 from by omega,
                rowLen_oddLow (show 0 < s by omega)]; omega⟩ hnI
        · -- right neighbor (2s-1, c)
          dsimp only
          refine ⟨2 * s - 1, c, by omega, by omega, by omega, ?_, ?_, ?_⟩
          · rw [show 2 * s - 1 = 2 * (s - 1) + 1 from by omega,
              rowLen_oddUp (show s - 1 < s by omega)]
            omega
          · rw [adj_spaces_A (s : Int) _ _ (by omega) (by omega)]
            simp only [List.mem_cons, List.not_mem_nil, or_false, Prod.mk.injEq]
            simp only [reduceCtorEq, and_false, false_or, or_false, and_true]
            omega
          · intro hnI
            have hc0 : c = 0 := by
              by_contra hcon
              exact hnI ⟨by omega, by omega,
                by rw [show 2 * s - 1 = 2 * (s - 1) + 1 from by omega,
                  rowLen_oddUp (show s - 1 < s by omega)]; omega,
                fun _ => by rw [show 2 * s - 1 = 2 * (s - 1) + 1 from by omega,
                  rowLen_oddUp (show s - 1 < s by omega)]; omega⟩
            rw [frameEdge, if_neg (by omega), if_pos hc0, if_pos (by omega)]
        · -- left neighbor (2s-1, c+1)
          dsimp only
          refine ⟨2 * s - 1, c + 1, by omega, by omega, by omega, ?_, ?_, ?_⟩
          · rw [show 2 * s - 1 = 2 * (s - 1) + 1 from by omega,
              rowLen_oddUp (show s - 1 < s by omega)]
            omega
          · rw [adj_spaces_A (s : Int) _ _ (by omega) (by omega)]
            simp only [List.mem_cons, List.not_mem_nil, or_false, Prod.mk.injEq]
            simp only [reduceCtorEq, and_false, false_or, or_false, and_true]
            omega
          · intro hnI
            have hlast : c + 1 = 2 * s := by
              by_contra hcon
              exact hnI ⟨by omega, by omega,
                by rw [show 2 * s - 1 = 2 * (s - 1) + 1 from by omega,
                  rowLen_oddUp (show s - 1 < s by omega)]; omega,
                fun _ => by rw [show 2 * s - 1 = 2 * (s - 1) + 1 from by omega,
                  rowLen_oddUp (show s - 1 < s by omega)]; omega⟩
            rw [frameEdge, if_neg (by omega), if_neg (by omega), if_pos (by omega)]
    · -- class D: r even, r >= 2 * s + 2
      obtain ⟨j, hj, rfl⟩ : ∃ j, j < s ∧ r = 2 * s + 2 + 2 * j :=
        ⟨(r - 2 * s - 2) / 2, by omega, by omega⟩
      rw [rowLen_evenLow hj] at hc3
      obtain ⟨hcl, hcu⟩ := himp (Or.inr ⟨hpar, by omega⟩)
      rw [rowLen_evenLow hj] at hcu
      rw [adj_spaces_D (s : Int) _ _ (by omega) (by omega)] at hx
      simp only [List.mem_cons, List.not_mem_nil, or_false] at hx
      rcases hx with rfl | rfl | rfl
      · -- base neighbor (2s+3+2j, c-1)
        dsimp only
        refine ⟨2 * s + 3 + 2 * j, c - 1, by omega, by omega, by omega, ?_, ?_, ?_⟩
        · rcases Nat.lt_or_ge (j + 1) s with hjs | hjs
          · rw [show 2 * s + 3 + 2 * j = 2 * s + 1 + 2 * (j + 1) from by omega,
              rowLen_oddLow hjs]
            omega
          · rw [show 2 * s + 3 + 2 * j = 4 * s + 1 from by omega, rowLen_bottom]
            omega
        · rw [adj_spaces_C2 (s : Int) _ _ (by omega) (by omega)]
          simp only [List.mem_cons, List.not_mem_nil, or_false, Prod.mk.injEq]
          simp only [reduceCtorEq, and_false, false_or, or_false, and_true]
          omega
        · intro hnI
          rcases Nat.lt_or_ge (j + 1) s with hjs | hjs
          · exact absurd ⟨by omega, by omega,
              by rw [show 2 * s + 3 + 2 * j = 2 * s + 1 + 2 * (j + 1) from by omega,
                rowLen_oddLow hjs]; omega,
              fun _ => by rw [show 2 * s + 3 + 2 * j = 2 * s + 1 + 2 * (j + 1) from by omega,
                rowLen_oddLow hjs]; omega⟩ hnI
          · rw [frameEdge, if_pos (Or.inr (by omega))]
      · -- right neighbor (2s+1+2j, c-1)
        dsimp only
        refine ⟨2 * s + 1 + 2 * j, c - 1, by omega, by omega, by omega, ?_, ?_, ?_⟩
        · rw [rowLen_oddLow hj]
          omega
        · rcases eq_or_ne j 0 with hj0 | hj0
          · subst hj0
            rw [show ((2 * s + 1 + 2 * 0 : Nat) : Int) = 2 * (s : Int) + 1 from by omega,
              adj_spaces_C1 (s : Int) _ (by omega)]
            simp only [List.mem_cons, List.not_mem_nil, or_false, Prod.mk.injEq]
            simp only [reduceCtorEq, and_false, false_or, or_false, and_true]
            omega
          · rw [adj_spaces_C2 (s : Int) _ _ (by omega) (by omega)]
            simp only [List.mem_cons, List.not_mem_nil, or_false, Prod.mk.injEq]
            simp only [reduceCtorEq, and_false, false_or, or_false, and_true]
            omega
        · intro hnI
          exact absurd ⟨by omega, by omega, by rw [rowLen_oddLow hj]; omega,
            fun _ => by rw [rowLen_oddLow hj]; omega⟩ hnI
      · -- left neighbor (2s+1+2j, c)
        dsimp only
        refine ⟨2 * s + 1 + 2 * j, c, by omega, by omega, by omega, ?_, ?_, ?_⟩
        · rw [rowLen_oddLow hj]
          omega
        · rcases eq_or_ne j 0 with hj0 | hj0
          · subst hj0
            rw [show ((2 * s + 1 + 2 * 0 : Nat) : Int) = 2 * (s : Int) + 1 from by omega,
              adj_spaces_C1 (s : Int) _ (by omega)]
            simp only [List.mem_cons, List.not_mem_nil, or_false, Prod.mk.injEq]
            simp only [reduceCtorEq, and_false, false_or, or_false, and_true]
            omega
          · rw [adj_spaces_C2 (s : Int) _ _ (by omega) (by omega)]
            simp only [List.mem_cons, List.not_mem_nil, or_false, Prod.mk.injEq]
            simp only [reduceCtorEq, and_false, false_or, or_false, and_true]
            omega
        · intro hnI
          exact absurd ⟨by omega, by omega, by rw [rowLen_oddLow hj]; omega,
            fun _ => by rw [rowLen_oddLow hj]; omega⟩ hnI
  · -- odd rows
    rcases Nat.lt_or_ge r (2 * s) with hreg | hreg
    · -- class A: r odd, r < 2 * s
      obtain ⟨j, hj, rfl⟩ : ∃ j, j < s ∧ r = 2 * j + 1 := ⟨(r - 1) / 2, by omega, by omega⟩
      rw [rowLen_oddUp hj] at hc3
      obtain ⟨hcl, hcu⟩ := himp (Or.inl ⟨hpar, hreg⟩)
      rw [rowLen_oddUp hj] at hcu
      rw [adj_spaces_A (s : Int) _ _ (by omega) (by omega)] at hx
      simp only [List.mem_cons, List.not_mem_nil, or_false] at hx
      rcases hx with rfl | rfl | rfl
      · -- base neighbor (2j, c-1)
        dsimp only
        refine ⟨2 * j, c - 1, by omega, by omega, by omega, ?_, ?_, ?_⟩
        · rw [rowLen_even_le (by omega : j ≤ s)]
          omega
        · rw [adj_spaces_B1 (s : Int) _ _ (by omega) (by omega)]
          simp only [List.mem_cons, List.not_mem_nil, or_false, Prod.mk.injEq]
          simp only [reduceCtorEq, and_false, false_or, or_false, and_true]
          omega
        · intro hnI
          have hj0 : j = 0 := by
            by_contra hj0
            exact hnI ⟨by omega, by omega,
              by rw [rowLen_even_le (by omega : j ≤ s)]; omega,
              fun hcon => by rw [rowLen_even_le (by omega : j ≤ s)]; omega⟩
          subst hj0
          rw [frameEdge, if_pos (Or.inl (by omega))]
      · -- right neighbor (2j+2, c)
        dsimp only
        refine ⟨2 * j + 2, c, by omega, by omega, by omega, ?_, ?_, ?_⟩
        · rw [rowLen_evenUp hj]
          omega
        · rcases Nat.lt_or_ge (2 * j + 2) (2 * s) with hq | hq
          · rw [adj_spaces_B1 (s : Int) _ _ (by omega) (by omega)]
            simp only [List.mem_cons, List.not_mem_nil, or_false, Prod.mk.injEq]
            simp only [reduceCtorEq, and_false, false_or, or_false, and_true]
            omega
          · have h2s : ((2 * j + 2 : Nat) : Int) = 2 * (s : Int) := by omega
            rw [h2s, adj_spaces_B2 (s : Int) _ (by omega)]
            simp only [List.mem_cons, List.not_mem_nil, or_false, Prod.mk.injEq]
            simp only [reduceCtorEq, and_false, false_or, or_false, and_true]
            omega
        · intro hnI
          exact absurd ⟨by omega, by omega, by rw [rowLen_evenUp hj]; omega,
            fun hcon => by rw [rowLen_evenUp hj]; omega⟩ hnI
      · -- left neighbor (2j+2, c-1)
        dsimp only
        refine ⟨2 * j + 2, c - 1, by omega, by omega, by omega, ?_, ?_, ?_⟩
        · rw [rowLen_evenUp hj]
          omega
        · rcases Nat.lt_or_ge (2 * j + 2) (2 * s) with hq | hq
          · rw [adj_spaces_B1 (s : Int) _ _ (by omega) (by omega)]
            simp only [List.mem_cons, List.not_mem_nil, or_false, Prod.mk.injEq]
            simp only [reduceCtorEq, and_false, false_or, or_false, and_true]
            omega
          · have h2s : ((2 * j + 2 : Nat) : Int) = 2 * (s : Int) := by omega
            rw [h2s, adj_spaces_B2 (s : Int) _ (by omega)]
            simp only [List.mem_cons, List.not_mem_nil, or_false, Prod.mk.injEq]
            simp only [reduceCtorEq, and_false, false_or, or_false, and_true]
            omega
        · intro hnI
          exact absurd ⟨by omega, by omega, by rw [rowLen_evenUp hj]; omega,
            fun hcon => by rw [rowLen_evenUp hj]; omega⟩ hnI
    · -- classes C1/C2: r odd, r >= 2 * s + 1
      obtain ⟨j, hj, rfl⟩ : ∃ j, j < s ∧ r = 2 * s + 1 + 2 * j :=
        ⟨(r - 2 * s - 1) / 2, by omega, by omega⟩
      rw [rowLen_oddLow hj] at hc3
      rcases eq_or_ne j 0 with hj0 | hj0
      · subst hj0
        rw [show ((2 * s + 1 + 2 * 0 : Nat) : Int) = 2 * (s : Int) + 1 from by omega,
          adj_spaces_C1 (s : Int) _ (by omega)] at hx
        simp only [List.mem_cons, List.not_mem_nil, or_false] at hx
        rcases hx with rfl | rfl | rfl
        · -- base neighbor (2s, c)
          dsimp only
          refine ⟨2 * s, c, by omega, by omega, by omega, ?_, ?_, ?_⟩
          · rw [rowLen_even_le (le_refl s)]
            omega
          · rw [show ((2 * s : Nat) : Int) = 2 * (s : Int) from by omega,
              adj_spaces_B2 (s : Int) _ (by omega)]
            simp only [List.mem_cons, List.not_mem_nil, or_false, Prod.mk.injEq]
            simp only [reduceCtorEq, and_false, false_or, or_false, and_true]
            omega
          · intro hnI
            exact absurd ⟨by omega, by omega,
              by rw [rowLen_even_le (le_refl s)]; omega,
              fun hcon => by rw [rowLen_even_le (le_refl s)]; omega⟩ hnI
        · -- right neighbor (2s+2, c+1)
          dsimp only
          refine ⟨2 * s + 2, c + 1, by omega, by omega, by omega, ?_, ?_, ?_⟩
          · rw [show 2 * s + 2 = 2 * s + 2 + 2 * 0 from by omega, rowLen_evenLow hs]
            omega
          · rw [adj_spaces_D (s : Int) _ _ (by omega) (by omega)]
            simp only [List.mem_cons, List.not_mem_nil, or_false, Prod.mk.injEq]
            simp only [reduceCtorEq, and_false, false_or, or_false, and_true]
            omega
          · intro hnI
            have hlast : c + 1 = 2 * s := by
              by_contra hcon
              exact hnI ⟨by omega, by omega,
                by rw [show 2 * s + 2 = 2 * s + 2 + 2 * 0 from by omega,
                  rowLen_evenLow hs]; omega,
                fun _ => by rw [show 2 * s + 2 = 2 * s + 2 + 2 * 0 from by omega,
                  rowLen_evenLow hs]; omega⟩
            rw [frameEdge, if_neg (by omega), if_neg (by omega), if_neg (by omega)]
        · -- left neighbor (2s+2, c)
          dsimp only
          refine ⟨2 * s + 2, c, by omega, by omega, by omega, ?_, ?_, ?_⟩
          · rw [show 2 * s + 2 = 2 * s + 2 + 2 * 0 from by omega, rowLen_evenLow hs]
            omega
          · rw [adj_spaces_D (s : Int) _ _ (by omega) (by omega)]
            simp only [List.mem_cons, List.not_mem_nil, or_false, Prod.mk.injEq]
            simp only [reduceCtorEq, and_false, false_or, or_false, and_true]
            omega
          · intro hnI
            have hc0 : c = 0 := by
              by_contra hcon
              exact hnI ⟨by omega, by omega,
                by rw [show 2 * s + 2 = 2 * s + 2 + 2 * 0 from by omega,
                  rowLen_evenLow hs]; omega,
                fun _ => by rw [show 2 * s + 2 = 2 * s + 2 + 2 * 0 from by omega,
                  rowLen_evenLow hs]; omega⟩
            rw [frameEdge, if_neg (by omega), if_pos hc0, if_neg (by omega)]
      · -- C2: j >= 1
        rw [adj_spaces_C2 (s : Int) _ _ (by omega) (by omega)] at hx
        simp only [List.mem_cons, List.not_mem_nil, or_false] at hx
        rcases hx with rfl | rfl | rfl
        · -- base neighbor (2s+2j, c+1)
          dsimp only
          refine ⟨2 * s + 2 * j, c + 1, by omega, by omega, by omega, ?_, ?_, ?_⟩
          · rw [show 2 * s + 2 * j = 2 * s + 2 + 2 * (j - 1) from by omega,
              rowLen_evenLow (show j - 1 < s by omega)]
            omega
          · rw [adj_spaces_D (s : Int) _ _ (by omega) (by omega)]
            simp only [List.mem_cons, List.not_mem_nil, or_false, Prod.mk.injEq]
            simp only [reduceCtorEq, and_false, false_or, or_false, and_true]
            omega
          · intro hnI
            exact absurd ⟨by omega, by omega,
              by rw [show 2 * s + 2 * j = 2 * s + 2 + 2 * (j - 1) from by omega,
                rowLen_evenLow (show j - 1 < s by omega)]; omega,
              fun _ => by rw [show 2 * s + 2 * j = 2 * s + 2 + 2 * (j - 1) from by omega,
                rowLen_evenLow (show j - 1 < s by omega)]; omega⟩ hnI
        · -- right neighbor (2s+2+2j, c+1)
          dsimp only
          refine ⟨2 * s + 2 + 2 * j, c + 1, by omega, by omega, by omega, ?_, ?_, ?_⟩
          · rw [rowLen_evenLow hj]
            omega
          · rw [adj_spaces_D (s : Int) _ _ (by omega) (by omega)]
            simp only [List.mem_cons, List.not_mem_nil, or_false, Prod.mk.injEq]
            simp only [reduceCtorEq, and_false, false_or, or_false, and_true]
            omega
          · intro hnI
            have hlast : c + 1 = 2 * s - j := by
              by_contra hcon
              exact hnI ⟨by omega, by omega, by rw [rowLen_evenLow hj]; omega,
                fun _ => by rw [rowLen_evenLow hj]; omega⟩
            rw [frameEdge, if_neg (by omega), if_neg (by omega), if_neg (by omega)]
        · -- left neighbor (2s+2+2j, c)
          dsimp only
          refine ⟨2 * s + 2 + 2 * j, c, by omega, by omega, by omega, ?_, ?_, ?_⟩
          · rw [rowLen_evenLow hj]
            omega
          · rw [adj_spaces_D (s : Int) _ _ (by omega) (by omega)]
            simp only [List.mem_cons, List.not_mem_nil, or_false, Prod.mk.injEq]
            simp only [reduceCtorEq, and_false, false_or, or_false, and_true]
            omega
          · intro hnI
            have hc0 : c = 0 := by
              by_contra hcon
              exact hnI ⟨by omega, by omega, by rw [rowLen_evenLow hj]; omega,
                fun _ => by rw [rowLen_evenLow hj]; omega⟩
            rw [frameEdge, if_neg (by omega), if_pos hc0, if_neg (by omega)]

/-- The `side` of the grid's row count recovers the order. -/
theorem side_rows (s : Nat) : side ((4 * s + 2 : Nat) : Int) = (s : Int) := by
  unfold side
  omega

/-- Length of each row of the initial board. -/
theorem init_row_length (board : List Face) (s r : Nat) (hs : 1 ≤ s)
    (hb : board.length = 6 * s) (hr : r < 4 * s + 2) :
    ((init_solution board)[r]?).map List.length = some (rowLen s r) := by
  rcases row_classes hs hr with h0 | ⟨j, hj, hrr⟩ | ⟨j, hj, hrr⟩ | ⟨j, hj, hrr⟩ |
    ⟨j, hj, hrr⟩ | h1
  · subst h0
    rw [init_row_top board s hs hb, rowLen_top]
    simp [List.length_take, hb]
    omega
  · subst hrr
    rw [init_row_oddUp board s j hs hb hj, rowLen_oddUp hj]
    simp
  · subst hrr
    rw [init_row_evenUp board s j hs hb hj, rowLen_evenUp hj]
    simp
  · subst hrr
    rw [init_row_oddLow board s j hs hb hj, rowLen_oddLow hj]
    simp
  · subst hrr
    rw [init_row_evenLow board s j hs hb hj, rowLen_evenLow hj]
    simp
  · subst h1
    rw [init_row_bottom board s hs hb, rowLen_bottom]
    simp [List.length_take, List.length_drop, hb]
    omega

/-- Claim C7: for every interior slot of a board of order `s`, the adjacency
function (called with the side value `try_tile` derives from the grid) yields
exactly 3 triples, one per edge position base, right, left in that order, and
every returned coordinate is a valid row and column index of the board. -/
theorem adj_spaces_safe :
    ∀ (s : Nat) (board : List Face) (r c : Nat), 1 ≤ s → board.length = 6 * s →
    getCell (init_solution board) r c = some none →
    (adj_spaces (side ((init_solution board).length : Int)) (r : Int) (c : Int)).length = 3 ∧
    (adj_spaces (side ((init_solution board).length : Int)) (r : Int) (c : Int)).map
      (fun x => x.2.2) = [Edge.base, Edge.right, Edge.left] ∧
    ∀ x ∈ adj_spaces (side ((init_solution board).length : Int)) (r : Int) (c : Int),
      ∃ (ar ac : Nat) (row : List (Option Tile)),
        x.1 = (ar : Int) ∧ x.2.1 = (ac : Int) ∧
        (init_solution board)[ar]? = some row ∧ ac < row.length := by
  intro s board r c hs hb hcell
  have hI : Interior s r c := (init_cell_interior board s r c hs hb).mp hcell
  have hside : side ((init_solution board).length : Int) = (s : Int) := by
    rw [init_length board s hb, side_rows]
  rw [hside]
  refine ⟨rfl, ?_, ?_⟩
  · simp [adj_spaces]
  · intro x hx
    obtain ⟨ar, ac, h1, h2, h3, h4, _, _⟩ := adj_master s r c hs hI x hx
    have hrow := init_row_length board s ar hs hb h3
    rcases hq : (init_solution board)[ar]? with _ | row
    · rw [hq] at hrow
      exact absurd hrow (by simp)
    · rw [hq] at hrow
      refine ⟨ar, ac, row, h1, h2, hq, ?_⟩
      simp only [Option.map_some', Option.some.injEq] at hrow
      omega

/-- Witness for claim C7 at interior slot (1,1) of the order-1 fixture. -/
theorem adj_spaces_safe_witness : 1 ≤ 1 ∧ fixB.length = 6 * 1 ∧
    getCell (init_solution fixB) 1 1 = some none ∧
    ((adj_spaces (side ((init_solution fixB).length : Int)) ((1 : Nat) : Int)
        ((1 : Nat) : Int)).length = 3 ∧
      (adj_spaces (side ((init_solution fixB).length : Int)) ((1 : Nat) : Int)
        ((1 : Nat) : Int)).map (fun x => x.2.2) = [Edge.base, Edge.right, Edge.left] ∧
      ∀ x ∈ adj_spaces (side ((init_solution fixB).length : Int)) ((1 : Nat) : Int)
        ((1 : Nat) : Int),
        ∃ (ar ac : Nat) (row : List (Option Tile)),
          x.1 = (ar : Int) ∧ x.2.1 = (ac : Int) ∧
          (init_solution fixB)[ar]? = some row ∧ ac < row.length) :=
  ⟨by decide, by decide, by decide,
    adj_spaces_safe 1 fixB 1 1 (by decide) (by decide) (by decide)⟩

/-! ## Solver-side grid lemmas -/

/-- Cell update within a cons grid at a positive row. -/
theorem setCell_cons_succ (row : List (Option Tile)) (rest : Grid) (r c : Nat)
    (v : Option Tile) :
    setCell (row :: rest) (r + 1) c v = row :: setCell rest r c v := by
  simp [setCell, List.getD_cons_succ]

/-- Cell update within a cons grid at row zero. -/
theorem setCell_cons_zero (row : List (Option Tile)) (rest : Grid) (c : Nat)
    (v : Option Tile) :
    setCell (row :: rest) 0 c v = row.set c v :: rest := by
  simp [setCell]

/-- Reading a cell after an update. -/
theorem getCell_setCell (g : Grid) (r c : Nat) (v : Option Tile) (r' c' : Nat) :
    getCell (setCell g r c v) r' c' =
      if r = r' ∧ c = c' then (getCell g r' c').map (fun _ => v)
      else getCell g r' c' := by
  rcases eq_or_ne r r' with rfl | hr
  · rw [getCell, getElem?_setCell_self]
    rcases hq : g[r]? with _ | row
    · rw [getCell, hq]
      simp [Option.map_none']
    · rcases eq_or_ne c c' with rfl | hc
      · rw [if_pos ⟨rfl, rfl⟩, getCell, hq]
        simp only [Option.map_some', Option.some_bind]
        rcases hcc : row[c]? with _ | x
        · rw [List.getElem?_set_self', hcc]
          rfl
        · rw [List.getElem?_set_self', hcc]
          rfl
      · rw [if_neg (by tauto), getCell, hq]
        simp only [Option.map_some', Option.some_bind]
        rw [List.getElem?_set_ne hc]
  · rw [if_neg (by tauto), getCell, getElem?_setCell_ne g c v hr, getCell]

/-- Python indexing at a natural coordinate is plain indexing. -/
theorem getCellI_natCast (g : Grid) (ar ac : Nat) :
    getCellI g (ar : Int) (ac : Int) = getCell g ar ac := by
  rw [getCellI, pyGetRow, if_pos (Int.natCast_nonneg ar), Int.toNat_natCast, getCell]
  rcases hq : g[ar]? with _ | row
  · rfl
  · simp only [Option.some_bind]
    rw [pyGet, if_pos (Int.natCast_nonneg ac), Int.toNat_natCast]

/-- Evaluation of `fitOpt` when the first face is missing. -/
theorem fitOpt_none_left (b : Option Face) : fitOpt none b = none := by
  cases b <;> rfl

/-- Evaluation of `fitOpt` when the second face is missing. -/
theorem fitOpt_none_right (a : Face) : fitOpt (some a) none = none := rfl

/-- Evaluation of `fitOpt` on two present faces. -/
theorem fitOpt_some (x y : Face) : fitOpt (some x) (some y) = some (x.fits y) := rfl

/-- `ttGo` only depends on the cells it reads. -/
theorem ttGo_congr (t : Tile) (g g' : Grid) (l : List (Int × Int × Edge))
    (h : ∀ x ∈ l, getCellI g' x.1 x.2.1 = getCellI g x.1 x.2.1) :
    ttGo t g' l = ttGo t g l := by
  induction l with
  | nil => rfl
  | cons x rest ih =>
    obtain ⟨ar, ac, e⟩ := x
    simp only [ttGo]
    rw [h ⟨ar, ac, e⟩ (List.mem_cons_self _ _),
      ih (fun y hy => h y (List.mem_cons_of_mem _ hy))]

/-- Success of the `try_tile` loop, element by element. -/
theorem ttGo_true_iff (t : Tile) (g : Grid) (l : List (Int × Int × Edge)) :
    ttGo t g l = some true ↔
      ∀ x ∈ l, getCellI g x.1 x.2.1 = some none ∨
        ∃ adj fa fb, getCellI g x.1 x.2.1 = some (some adj) ∧
          t.get x.2.2 = some fa ∧ adj.get x.2.2 = some fb ∧ fa.fits fb = true := by
  induction l with
  | nil => simp [ttGo]
  | cons x rest ih =>
    obtain ⟨ar, ac, e⟩ := x
    simp only [ttGo]
    rcases hc : getCellI g ar ac with _ | adjv
    · constructor
      · intro h
        exact absurd h (by simp)
      · intro h
        rcases h _ (List.mem_cons_self _ _) with h1 | ⟨adj, fa, fb, h1, -⟩
        · rw [hc] at h1
          exact absurd h1 (by simp)
        · rw [hc] at h1
          exact absurd h1 (by simp)
    · rcases adjv with _ | adj
      · rw [ih]
        constructor
        · intro h y hy
          rcases List.mem_cons.mp hy with rfl | hmem
          · exact Or.inl hc
          · exact h y hmem
        · intro h y hy
          exact h y (List.mem_cons_of_mem _ hy)
      · dsimp only
        rcases hta : t.get e with _ | fa
        · rw [fitOpt_none_left]
          dsimp only
          constructor
          · intro h
            exact absurd h (by simp)
          · intro h
            rcases h _ (List.mem_cons_self _ _) with h1 | ⟨adj2, fa2, fb2, h1, hta2, hadj2, -⟩
            · rw [hc] at h1
              exact absurd h1 (by simp)
            · dsimp only at hta2
              rw [hta] at hta2
              exact absurd hta2 (by simp)
        · rcases hadj : adj.get e with _ | fb
          · rw [fitOpt_none_right]
            dsimp only
            constructor
            · intro h
              exact absurd h (by simp)
            · intro h
              rcases h _ (List.mem_cons_self _ _) with h1 | ⟨adj2, fa2, fb2, h1, hta2, hadj2, -⟩
              · rw [hc] at h1
                exact absurd h1 (by simp)
              · rw [hc] at h1
                simp only [Option.some.injEq] at h1
                dsimp only at hadj2
                rw [← h1, hadj] at hadj2
                exact absurd hadj2 (by simp)
          · rw [fitOpt_some]
            rcases hfit : fa.fits fb with _ | _
            · dsimp only
              constructor
              · intro h
                exact absurd h (by simp)
              · intro h
                rcases h _ (List.mem_cons_self _ _) with h1 |
                  ⟨adj2, fa2, fb2, h1, hta2, hadj2, hfit2⟩
                · rw [hc] at h1
                  exact absurd h1 (by simp)
                · rw [hc] at h1
                  simp only [Option.some.injEq] at h1
                  dsimp only at hta2 hadj2
                  rw [hta] at hta2
                  rw [← h1, hadj] at hadj2
                  simp only [Option.some.injEq] at hta2 hadj2
                  rw [← hta2, ← hadj2] at hfit2
                  rw [hfit2] at hfit
                  exact absurd hfit (by simp)
            · dsimp only
              rw [ih]
              constructor
              · intro h y hy
                rcases List.mem_cons.mp hy with rfl | hmem
                · dsimp only
                  exact Or.inr ⟨adj, fa, fb, hc, hta, hadj, hfit⟩
                · exact h y hmem
              · intro h y hy
                exact h y (List.mem_cons_of_mem _ hy)

/-! ## First-empty-slot scanning -/

/-- The first empty slot of a row heads its empty-position list. -/
theorem firstNone_eq (row : List (Option Tile)) :
    firstNone row = (nonesRow row).head? := by
  induction row with
  | nil => rfl
  | cons x rest ih =>
    cases x with
    | none => rfl
    | some t => rw [firstNone, nonesRow, ih, List.head?_map]

/-- The scan of `solve` finds the head of the empty-slot list. -/
theorem findEmpty_eq_head (g : Grid) : findEmpty g = (nones g).head? := by
  induction g with
  | nil => rfl
  | cons row rest ih =>
    rw [findEmpty, firstNone_eq, nones]
    rcases hq : nonesRow row with _ | ⟨c0, cr⟩
    · rw [List.head?, ih, List.map_nil, List.nil_append, List.head?_map]
    · rfl

/-- Membership in the per-row empty-position list. -/
theorem nonesRow_mem (row : List (Option Tile)) (c : Nat) :
    c ∈ nonesRow row ↔ row[c]? = some none := by
  induction row generalizing c with
  | nil => simp [nonesRow]
  | cons x rest ih =>
    cases x with
    | none =>
      cases c with
      | zero => simp [nonesRow]
      | succ m =>
        rw [nonesRow, List.getElem?_cons_succ, ← ih m]
        constructor
        · intro h
          rcases List.mem_cons.mp h with he | hmem
          · exact absurd he (by omega)
          · obtain ⟨y, hy, he⟩ := List.mem_map.mp hmem
            have : y = m := by omega
            exact this ▸ hy
        · intro h
          exact List.mem_cons_of_mem _ (List.mem_map.mpr ⟨m, h, rfl⟩)
    | some t =>
      cases c with
      | zero => simp [nonesRow]
      | succ m =>
        rw [nonesRow, List.getElem?_cons_succ, ← ih m]
        constructor
        · intro h
          obtain ⟨y, hy, he⟩ := List.mem_map.mp h
          have : y = m := by omega
          exact this ▸ hy
        · intro h
          exact List.mem_map.mpr ⟨m, h, rfl⟩

/-- Membership in the empty-slot list is emptiness of the cell. -/
theorem nones_mem (g : Grid) (r c : Nat) :
    (r, c) ∈ nones g ↔ getCell g r c = some none := by
  induction g generalizing r with
  | nil => simp [nones, getCell]
  | cons row rest ih =>
    rw [nones]
    cases r with
    | zero =>
      rw [getCell, List.getElem?_cons_zero, Option.some_bind, ← nonesRow_mem]
      constructor
      · intro h
        rcases List.mem_append.mp h with hmem | hmem
        · obtain ⟨y, hy, he⟩ := List.mem_map.mp hmem
          have h2 : y = c := congrArg Prod.snd he
          exact h2 ▸ hy
        · obtain ⟨y, hy, he⟩ := List.mem_map.mp hmem
          have h1 := congrArg Prod.fst he
          simp at h1
      · intro h
        exact List.mem_append.mpr (Or.inl (List.mem_map.mpr ⟨c, h, rfl⟩))
    | succ m =>
      rw [getCell, List.getElem?_cons_succ, ← getCell, ← ih m]
      constructor
      · intro h
        rcases List.mem_append.mp h with hmem | hmem
        · obtain ⟨y, hy, he⟩ := List.mem_map.mp hmem
          exact absurd (congrArg Prod.fst he).symm (by simp)
        · obtain ⟨y, hy, he⟩ := List.mem_map.mp hmem
          have h1 : y.1 + 1 = m + 1 := congrArg Prod.fst he
          have h2 : y.2 = c := congrArg Prod.snd he
          have : y = (m, c) := by
            obtain ⟨y1, y2⟩ := y
            simp at h1 h2
            simp [h1, h2]
          exact this ▸ hy
      · intro h
        exact List.mem_append.mpr (Or.inr (List.mem_map.mpr ⟨(m, c), h, rfl⟩))

/-! ## Fuel adequacy for the solver -/

/-- Congruence for the rotations loop in its recursive call. -/
theorem tryRots_congr (rec1 rec2 : Grid → List Tile → Option (List Grid))
    (g : Grid) (tiles : List Tile) (row col k : Nat)
    (h : ∀ g', rec1 g' (tiles.eraseIdx k) = rec2 g' (tiles.eraseIdx k)) :
    ∀ ms : List Nat, tryRots rec1 g tiles row col k ms = tryRots rec2 g tiles row col k ms := by
  intro ms
  induction ms with
  | nil => rfl
  | cons m ms ih =>
    simp only [tryRots, ih, h]

/-- Congruence for the candidate-tile loop in its recursive call. -/
theorem tryKs_congr (rec1 rec2 : Grid → List Tile → Option (List Grid))
    (g : Grid) (tiles : List Tile) (row col : Nat) :
    ∀ ks : List Nat,
      (∀ g' k, k ∈ ks → rec1 g' (tiles.eraseIdx k) = rec2 g' (tiles.eraseIdx k)) →
      tryKs rec1 g tiles row col ks = tryKs rec2 g tiles row col ks := by
  intro ks
  induction ks with
  | nil => intro h; rfl
  | cons k ks ih =>
    intro h
    simp only [tryKs]
    rw [tryRots_congr rec1 rec2 g tiles row col k
        (fun g' => h g' k (List.mem_cons_self _ _)) [1, 2, 3],
      ih (fun g' k' hk' => h g' k' (List.mem_cons_of_mem _ hk'))]

/-- Value of the rotations loop when every recursive call succeeds. -/
theorem tryRots_eq (rec : Grid → List Tile → Option (List Grid)) (g : Grid)
    (tiles : List Tile) (row col k : Nat) (f : Grid → List Tile → List Grid)
    (h : ∀ g', rec g' (tiles.eraseIdx k) = some (f g' (tiles.eraseIdx k))) :
    ∀ ms : List Nat, tryRots rec g tiles row col k ms =
      some (ms.flatMap (fun m =>
        if try_tile ((tiles.getD k default).rotate (m : Int)) g (row : Int) (col : Int)
            = some true then
          f (setCell g row col (some ((tiles.getD k default).rotate (m : Int))))
            (tiles.eraseIdx k)
        else [])) := by
  intro ms
  induction ms with
  | nil => rfl
  | cons m ms ih =>
    simp only [tryRots, ih, h, List.flatMap_cons]
    split_ifs with hcond
    · rfl
    · simp

/-- Value of the candidate-tile loop when every recursive call succeeds. -/
theorem tryKs_eq (rec : Grid → List Tile → Option (List Grid)) (g : Grid)
    (tiles : List Tile) (row col : Nat) (f : Grid → List Tile → List Grid) :
    ∀ ks : List Nat,
      (∀ g' k, k ∈ ks → rec g' (tiles.eraseIdx k) = some (f g' (tiles.eraseIdx k))) →
      tryKs rec g tiles row col ks =
        some (ks.flatMap (fun k => [1, 2, 3].flatMap (fun m =>
          if try_tile ((tiles.getD k default).rotate (m : Int)) g (row : Int) (col : Int)
              = some true then
            f (setCell g row col (some ((tiles.getD k default).rotate (m : Int))))
              (tiles.eraseIdx k)
          else []))) := by
  intro ks
  induction ks with
  | nil => intro h; rfl
  | cons k ks ih =>
    intro h
    simp only [tryKs]
    rw [tryRots_eq rec g tiles row col k f (fun g' => h g' k (List.mem_cons_self _ _)) [1, 2, 3],
      ih (fun g' k' hk' => h g' k' (List.mem_cons_of_mem _ hk'))]
    simp [List.flatMap_cons]

/-- Length of a list after removing an in-range index. -/
theorem length_eraseIdx_cons (t : Tile) (ts : List Tile) (k : Nat)
    (hk : k < ts.length + 1) :
    ((t :: ts).eraseIdx k).length = ts.length := by
  rw [List.length_eraseIdx]
  simp only [List.length_cons]
  split_ifs <;> omega

/-- Any fuel above the tile count computes the same result as the canonical
fuel `tiles.length + 1`. -/
theorem solveF_fuel (fuel : Nat) : ∀ g tiles, tiles.length < fuel →
    solveF fuel g tiles = solveF (tiles.length + 1) g tiles := by
  induction fuel with
  | zero => intro g tiles h; exact absurd h (Nat.not_lt_zero _)
  | succ fuel ih =>
    intro g tiles h
    cases tiles with
    | nil => rfl
    | cons t ts =>
      simp only [List.length_cons] at h
      rw [solveF, List.length_cons, solveF]
      rcases hq : findEmpty g with _ | ⟨row, col⟩
      · rfl
      · dsimp only
        apply tryKs_congr
        intro g' k hk
        have hklt : k < ts.length + 1 := by
          simpa [List.length_cons] using List.mem_range.mp hk
        have hX : ((t :: ts).eraseIdx k).length = ts.length := length_eraseIdx_cons t ts k hklt
        have h1 := ih g' ((t :: ts).eraseIdx k) (by omega)
        rw [h1, hX]

/-- With fuel above the tile count the search cannot run out of fuel. -/
theorem solveF_isSome (fuel : Nat) : ∀ g tiles, tiles.length < fuel →
    (solveF fuel g tiles).isSome := by
  induction fuel with
  | zero => intro g tiles h; exact absurd h (Nat.not_lt_zero _)
  | succ fuel ih =>
    intro g tiles h
    cases tiles with
    | nil => rfl
    | cons t ts =>
      simp only [List.length_cons] at h
      simp only [solveF]
      rcases hq : findEmpty g with _ | ⟨row, col⟩
      · rfl
      · dsimp only
        have hrec : ∀ g' k, k ∈ List.range (t :: ts).length →
            solveF fuel g' ((t :: ts).eraseIdx k) =
              some ((fun g' ts' => (solveF fuel g' ts').getD []) g' ((t :: ts).eraseIdx k)) := by
          intro g' k hk
          have hklt : k < ts.length + 1 := by
            simpa [List.length_cons] using List.mem_range.mp hk
          have hX := length_eraseIdx_cons t ts k hklt
          have hs := ih g' ((t :: ts).eraseIdx k) (by omega)
          obtain ⟨v, hv⟩ := Option.isSome_iff_exists.mp hs
          simp [hv]
        rw [tryKs_eq (solveF fuel) g (t :: ts) row col
          (fun g' ts' => (solveF fuel g' ts').getD []) (List.range (t :: ts).length) hrec]
        rfl

/-- C9: `solve` always terminates. The recursion depth of the source's `solve` is
bounded by the size of the remaining tile multiset (which strictly decreases at
each recursive call, one tile being consumed per level): in the fuel-indexed
embedding, every fuel bound exceeding `tiles.length` is enough — the search
never runs out of fuel and its finite solution list is independent of the
bound, so the generator is exhausted after finitely many steps. -/
theorem solve_terminates (g : Grid) (tiles : List Tile) (fuel : Nat)
    (h : tiles.length < fuel) :
    solveF fuel g tiles = some (solve g tiles) := by
  rw [solveF_fuel fuel g tiles h, solve]
  obtain ⟨v, hv⟩ :=
    Option.isSome_iff_exists.mp (solveF_isSome (tiles.length + 1) g tiles (Nat.lt_succ_self _))
  rw [hv]
  simp

/-- Witness for `solve_terminates` at the order-1 fixture with fuel 7. -/
theorem solve_terminates_witness :
    fixT.length < 7 ∧
      solveF 7 (init_solution fixB) fixT = some (solve (init_solution fixB) fixT) :=
  ⟨by decide, solve_terminates (init_solution fixB) fixT 7 (by decide)⟩

/-! ## Effect of placing a tile at the first empty slot -/

/-- Setting the first empty position of a row consumes the head of its
empty-position list. -/
theorem nonesRow_set_head (row : List (Option Tile)) (c : Nat) (t : Tile)
    (h : (nonesRow row).head? = some c) :
    nonesRow (row.set c (some t)) = (nonesRow row).tail := by
  induction row generalizing c with
  | nil => exact absurd h (by simp [nonesRow])
  | cons x rest ih =>
    cases x with
    | none =>
      have hc : c = 0 := by
        simp only [nonesRow, List.head?_cons, Option.some.injEq] at h
        omega
      subst hc
      rfl
    | some y =>
      rw [nonesRow, List.head?_map] at h
      rcases hq : (nonesRow rest).head? with _ | c'
      · rw [hq] at h
        exact absurd h (by simp)
      · rw [hq] at h
        simp only [Option.map_some', Option.some.injEq] at h
        subst h
        rw [List.set_cons_succ, nonesRow, ih c' hq, nonesRow]
        cases nonesRow rest <;> simp

/-- Filling the first empty slot of the grid consumes the head of the
row-major empty-slot list. -/
theorem nones_setCell_head (g : Grid) (row col : Nat) (t : Tile)
    (h : findEmpty g = some (row, col)) :
    nones (setCell g row col (some t)) = (nones g).tail := by
  induction g generalizing row with
  | nil => exact absurd h (by simp [findEmpty])
  | cons r0 rest ih =>
    rw [findEmpty] at h
    rcases hq : firstNone r0 with _ | c0
    · rw [hq] at h
      simp only [Option.map_eq_some'] at h
      obtain ⟨⟨row', col'⟩, hfe, hpair⟩ := h
      have hrow : row = row' + 1 := (congrArg Prod.fst hpair).symm
      have hcol : col = col' := (congrArg Prod.snd hpair).symm
      subst hrow
      subst hcol
      rw [setCell_cons_succ, nones, nones, ih row' hfe]
      have hnr : nonesRow r0 = [] := by
        rw [firstNone_eq] at hq
        exact List.head?_eq_none_iff.mp hq
      rw [hnr]
      simp only [List.map_nil, List.nil_append]
      cases nones rest <;> simp
    · rw [hq] at h
      simp only [Option.some.injEq] at h
      have hrow : row = 0 := (congrArg Prod.fst h).symm
      have hcol : col = c0 := (congrArg Prod.snd h).symm
      subst hrow
      subst hcol
      rw [setCell_cons_zero, nones, nones,
        nonesRow_set_head r0 col t (by rw [← firstNone_eq, hq])]
      rw [firstNone_eq] at hq
      rcases hnr : nonesRow r0 with _ | ⟨c1, cr⟩
      · rw [hnr] at hq
        exact absurd hq (by simp)
      · simp

/-! ## Recurrence equations of `solve` -/

/-- With no tiles left, `solve` yields the current board. -/
theorem solve_nil (g : Grid) : solve g [] = [g] := rfl

/-- With tiles left but no empty slot, the branch is dead. -/
theorem solve_deadend (g : Grid) (t0 : Tile) (ts : List Tile)
    (hfe : findEmpty g = none) :
    solve g (t0 :: ts) = [] := by
  rw [solve, List.length_cons, solveF, hfe]
  rfl

/-- One level of the search: every remaining tile is tried at the first empty
slot in each of its three rotations, recursing on success. -/
theorem solve_cons (g : Grid) (t0 : Tile) (ts : List Tile) (row col : Nat)
    (hfe : findEmpty g = some (row, col)) :
    solve g (t0 :: ts) = (List.range (t0 :: ts).length).flatMap (fun k =>
      [1, 2, 3].flatMap (fun m =>
        if try_tile (((t0 :: ts).getD k default).rotate (m : Int)) g (row : Int) (col : Int)
            = some true then
          solve (setCell g row col (some (((t0 :: ts).getD k default).rotate (m : Int))))
            ((t0 :: ts).eraseIdx k)
        else [])) := by
  rw [solve, List.length_cons, solveF, hfe]
  dsimp only
  have hrec : ∀ g' k, k ∈ List.range (t0 :: ts).length →
      solveF (ts.length + 1) g' ((t0 :: ts).eraseIdx k) =
        some ((fun g' ts' => solve g' ts') g' ((t0 :: ts).eraseIdx k)) := by
    intro g' k hk
    have hklt : k < ts.length + 1 := by
      simpa [List.length_cons] using List.mem_range.mp hk
    have hX := length_eraseIdx_cons t0 ts k hklt
    have h1 := solveF_fuel (ts.length + 1) g' ((t0 :: ts).eraseIdx k) (by omega)
    obtain ⟨v, hv⟩ := Option.isSome_iff_exists.mp
      (solveF_isSome (ts.length + 1) g' ((t0 :: ts).eraseIdx k) (by omega))
    rw [hv]
    rw [h1] at hv
    have hsv : solve g' ((t0 :: ts).eraseIdx k) = v := by
      rw [solve, hv]
      rfl
    exact congrArg some hsv.symm
  rw [tryKs_eq (solveF (ts.length + 1)) g (t0 :: ts) row col
    (fun g' ts' => solve g' ts') (List.range (t0 :: ts).length) hrec]
  rfl

/-! ## Face and tile basics -/

/-- Symmetry of the `fits` test. -/
theorem fits_comm (a b : Face) : a.fits b = b.fits a := by
  rcases a with ⟨fa, sa⟩
  rcases b with ⟨fb, sb⟩
  simp only [Face.fits]
  rcases Decidable.eq_or_ne fa fb with rfl | h1
  · rcases Decidable.eq_or_ne sa sb with rfl | h2
    · rfl
    · have e1 : (sa == sb) = false := by simp [h2]
      have e2 : (sb == sa) = false := by simp [Ne.symm h2]
      rw [e1, e2]
  · have e1 : (fa == fb) = false := by simp [h1]
    have e2 : (fb == fa) = false := by simp [Ne.symm h1]
    rw [e1, e2]
    simp

/-- A full tile has a face at every edge position. -/
theorem fullTile_get (t : Tile) (h : FullTile t) (e : Edge) : (t.get e).isSome := by
  obtain ⟨h1, h2, h3⟩ := h
  cases e with
  | base => exact h1
  | right => exact h2
  | left => exact h3

/-- Rotating a full tile yields a full tile. -/
theorem fullTile_rotate (t : Tile) (m : Int) (h : FullTile t) :
    FullTile (t.rotate m) := by
  obtain ⟨h1, h2, h3⟩ := h
  simp only [Tile.rotate]
  split_ifs
  · exact ⟨h3, h1, h2⟩
  · exact ⟨h2, h3, h1⟩
  · exact ⟨h1, h2, h3⟩

/-- The rotation result only depends on the amount mod 3. -/
theorem rotate_mod (t : Tile) (a b : Int) (h : a % 3 = b % 3) :
    t.rotate a = t.rotate b := by
  simp only [Tile.rotate, h]

/-- Every neighbor returned by `adj_spaces` lies in a different row. -/
theorem adj_row_ne (sd r c : Int) : ∀ x ∈ adj_spaces sd r c, x.1 ≠ r := by
  intro x hx
  simp only [adj_spaces, List.mem_cons, List.not_mem_nil, or_false] at hx
  rcases hx with rfl | rfl | rfl <;> dsimp only <;> split_ifs <;> omega

/-! ## Shape lemmas -/

/-- Reflexivity of `SameShape`. -/
theorem sameShape_refl (g : Grid) : SameShape g g := fun _ => rfl

/-- Transitivity of `SameShape`. -/
theorem sameShape_trans {a b c : Grid} (h1 : SameShape a b) (h2 : SameShape b c) :
    SameShape a c := fun r => (h1 r).trans (h2 r)

/-- A cell update does not change the shape. -/
theorem setCell_shape (g : Grid) (r c : Nat) (v : Option Tile) :
    SameShape (setCell g r c v) g := by
  intro r'
  rcases Decidable.eq_or_ne r r' with rfl | hne
  · rw [getElem?_setCell_self]
    rcases hq : g[r]? with _ | row
    · rfl
    · simp [List.length_set]
  · rw [getElem?_setCell_ne g c v hne]

/-- Equal shapes have equal row counts. -/
theorem sameShape_length {a b : Grid} (h : SameShape a b) : a.length = b.length := by
  by_contra hne
  rcases Nat.lt_or_ge a.length b.length with hlt | hge
  · have h1 := h a.length
    rw [show a[a.length]? = none from List.getElem?_eq_none (Nat.le_refl _),
      List.getElem?_eq_getElem hlt] at h1
    exact absurd h1 (by simp)
  · have hlt : b.length < a.length := by omega
    have h1 := h b.length
    rw [show b[b.length]? = none from List.getElem?_eq_none (Nat.le_refl _),
      List.getElem?_eq_getElem hlt] at h1
    exact absurd h1 (by simp)

/-- Presence of a list entry is exactly in-boundedness of the index. -/
theorem isSome_getElem_iff {α : Type} (l : List α) (n : Nat) :
    l[n]?.isSome ↔ n < l.length := by
  rcases Nat.lt_or_ge n l.length with h | h
  · simp [List.getElem?_eq_getElem h, h]
  · rw [List.getElem?_eq_none h]
    simp
    omega

/-- Equal shapes have the same defined cells. -/
theorem sameShape_isSome {a b : Grid} (h : SameShape a b) (r c : Nat) :
    (getCell a r c).isSome = (getCell b r c).isSome := by
  have h1 := h r
  rw [getCell, getCell]
  rcases ha : a[r]? with _ | ra
  · rw [ha] at h1
    rcases hb : b[r]? with _ | rb
    · rfl
    · rw [hb] at h1
      exact absurd h1 (by simp)
  · rw [ha] at h1
    rcases hb : b[r]? with _ | rb
    · rw [hb] at h1
      exact absurd h1 (by simp)
    · rw [hb] at h1
      simp only [Option.map_some', Option.some.injEq] at h1
      simp only [Option.some_bind]
      rcases Nat.lt_or_ge c ra.length with hc | hc
      · rw [List.getElem?_eq_getElem hc,
          List.getElem?_eq_getElem (show c < rb.length from by omega)]
        rfl
      · rw [List.getElem?_eq_none hc,
          List.getElem?_eq_none (show rb.length ≤ c from by omega)]

/-- Bounds extracted from a defined cell. -/
theorem getCell_some_bounds (g : Grid) (r c : Nat) (x : Option Tile)
    (h : getCell g r c = some x) :
    r < g.length ∧ ∃ row, g[r]? = some row ∧ c < row.length ∧ row ∈ g := by
  rw [getCell] at h
  rcases hq : g[r]? with _ | row
  · rw [hq] at h
    exact absurd h (by simp)
  · rw [hq] at h
    simp only [Option.some_bind] at h
    exact ⟨(List.getElem?_eq_some_iff.mp hq).1, row, rfl,
      (List.getElem?_eq_some_iff.mp h).1, List.getElem?_mem hq⟩

/-- Defined cells of the initial board are exactly the in-bounds coordinates. -/
theorem init_cell_isSome (board : List Face) (s r c : Nat) (hs : 1 ≤ s)
    (hb : board.length = 6 * s) :
    (getCell (init_solution board) r c).isSome ↔ r < 4 * s + 2 ∧ c < rowLen s r := by
  rcases Nat.lt_or_ge r (4 * s + 2) with hr | hr
  · have hrow := init_row_length board s r hs hb hr
    rw [getCell]
    rcases hq : (init_solution board)[r]? with _ | row
    · rw [hq] at hrow
      exact absurd hrow (by simp)
    · rw [hq] at hrow
      simp only [Option.map_some', Option.some.injEq] at hrow
      simp only [Option.some_bind]
      rw [isSome_getElem_iff row c, hrow]
      omega
  · rw [getCell, List.getElem?_eq_none (by rw [init_length board s hb]; omega)]
    simp only [Option.none_bind]
    constructor
    · intro hcon
      exact absurd hcon (by simp)
    · intro hcon
      omega

/-- Defined cells of any same-shaped grid are exactly the in-bounds
coordinates. -/
theorem shape_cell_isSome (board : List Face) (s : Nat) (g : Grid) (r c : Nat)
    (hs : 1 ≤ s) (hb : board.length = 6 * s)
    (hsh : SameShape g (init_solution board)) :
    (getCell g r c).isSome ↔ r < 4 * s + 2 ∧ c < rowLen s r := by
  rw [sameShape_isSome hsh r c]
  exact init_cell_isSome board s r c hs hb

/-! ## Search-state invariants -/

/-- The initial board is a good state over itself. -/
theorem goodState_init (g0 : Grid) : GoodState g0 g0 :=
  ⟨sameShape_refl g0, fun _ _ _ hx _ => hx, fun r c t h0 h1 => by
    rw [h0] at h1
    exact absurd h1 (by simp)⟩

/-- The initial board is vacuously consistent. -/
theorem consistent_init (g0 : Grid) : Consistent g0 g0 := by
  intro r c t h0 h1
  rw [h0] at h1
  exact absurd h1 (by simp)

/-- An empty cell of a good state is an empty (interior) slot of the initial
board. -/
theorem cell_none_good (g0 g : Grid) (hgood : GoodState g0 g) (r c : Nat)
    (hnone : getCell g r c = some none) : getCell g0 r c = some none := by
  obtain ⟨hsh, hpres, _⟩ := hgood
  have hsm : (getCell g0 r c).isSome := by
    rw [← sameShape_isSome hsh r c, hnone]
    rfl
  obtain ⟨x, hx⟩ := Option.isSome_iff_exists.mp hsm
  rcases x with _ | t
  · exact hx
  · have hp := hpres r c (some t) hx (by simp)
    rw [hnone] at hp
    exact absurd hp (by simp)

/-- Placing a full tile on an empty slot preserves the good-state invariant. -/
theorem place_goodState (g0 g : Grid) (row col : Nat) (t : Tile)
    (hgood : GoodState g0 g) (hnone : getCell g row col = some none)
    (hfull : FullTile t) :
    GoodState g0 (setCell g row col (some t)) := by
  obtain ⟨hsh, hpres, hfill⟩ := hgood
  refine ⟨sameShape_trans (setCell_shape g row col (some t)) hsh, ?_, ?_⟩
  · intro r c x hx hne
    rw [getCell_setCell]
    split_ifs with heq
    · obtain ⟨rfl, rfl⟩ := heq
      have h0 := cell_none_good g0 g ⟨hsh, hpres, hfill⟩ row col hnone
      rw [h0] at hx
      simp only [Option.some.injEq] at hx
      exact absurd hx.symm hne
    · exact hpres r c x hx hne
  · intro r c t2 h0 hcell
    rw [getCell_setCell] at hcell
    split_ifs at hcell with heq
    · obtain ⟨rfl, rfl⟩ := heq
      rw [hnone] at hcell
      simp only [Option.map_some', Option.some.injEq] at hcell
      rw [← hcell]
      exact hfull
    · exact hfill r c t2 h0 hcell

/-- The adjacency list consulted by `try_tile` on a board with `4 s + 2` rows. -/
theorem try_tile_adj (g : Grid) (t : Tile) (row col : Nat) (s : Nat)
    (hgl : g.length = 4 * s + 2) :
    try_tile t g (row : Int) (col : Int) =
      ttGo t g (adj_spaces (s : Int) (row : Int) (col : Int)) := by
  rw [try_tile, hgl, side_rows]

/-- Placing a tile that passes `try_tile` on an empty slot preserves
consistency of every filled slot. -/
theorem place_consistent (board : List Face) (s : Nat) (g : Grid) (row col : Nat)
    (t : Tile) (hs : 1 ≤ s) (hb : board.length = 6 * s)
    (hgood : GoodState (init_solution board) g)
    (hcons : Consistent (init_solution board) g)
    (hnone : getCell g row col = some none)
    (htry : try_tile t g (row : Int) (col : Int) = some true) :
    Consistent (init_solution board) (setCell g row col (some t)) := by
  obtain ⟨hsh, hpres, hfill⟩ := hgood
  have hgl : g.length = 4 * s + 2 := by
    rw [sameShape_length hsh, init_length board s hb]
  have hgl2 : (setCell g row col (some t)).length = 4 * s + 2 := by
    rw [length_setCell, hgl]
  have h00 : getCell (init_solution board) row col = some none :=
    cell_none_good _ g ⟨hsh, hpres, hfill⟩ row col hnone
  have hI0 : Interior s row col := (init_cell_interior board s row col hs hb).mp h00
  rw [try_tile_adj g t row col s hgl] at htry
  have htryIff := (ttGo_true_iff t g _).mp htry
  intro r c t2 h0 hcell
  rw [getCell_setCell] at hcell
  split_ifs at hcell with heq
  · -- the newly placed slot: its neighbors are unchanged
    obtain ⟨rfl, rfl⟩ := heq
    rw [hnone] at hcell
    simp only [Option.map_some', Option.some.injEq] at hcell
    rw [← hcell]
    rw [try_tile_adj _ t row col s hgl2]
    refine (ttGo_congr t g (setCell g row col (some t)) _ ?_).trans htry
    intro x hx
    obtain ⟨ar, ac, hx1, hx2, har, hac, hsym, hframe⟩ := adj_master s row col hs hI0 x hx
    have hne := adj_row_ne (s : Int) (row : Int) (col : Int) x hx
    rw [hx1] at hne
    rw [hx1, hx2, getCellI_natCast, getCellI_natCast, getCell_setCell,
      if_neg (fun hcon => hne (by rw [hcon.1]))]
  · -- a previously filled slot
    have hold : getCell g r c = some (some t2) := hcell
    have htold := hcons r c t2 h0 hold
    rw [try_tile_adj g t2 r c s hgl] at htold
    have holdIff := (ttGo_true_iff t2 g _).mp htold
    rw [try_tile_adj _ t2 r c s hgl2]
    rw [ttGo_true_iff]
    have hIrc : Interior s r c := (init_cell_interior board s r c hs hb).mp h0
    intro x hx
    obtain ⟨ar, ac, hx1, hx2, har, hac, hsym, hframe⟩ := adj_master s r c hs hIrc x hx
    have hxold := holdIff x hx
    rw [hx1, hx2, getCellI_natCast] at hxold
    rw [hx1, hx2, getCellI_natCast, getCell_setCell]
    split_ifs with heq2
    · -- the neighbor is the newly placed tile
      obtain ⟨hra, hca⟩ := heq2
      rw [← hra, ← hca, hnone]
      simp only [Option.map_some']
      refine Or.inr ?_
      -- faces from the symmetric check the new tile just passed
      have hmem : ((r : Int), (c : Int), x.2.2) ∈
          adj_spaces (s : Int) ((row : Nat) : Int) ((col : Nat) : Int) := by
        rw [hra, hca]
        exact hsym
      have hsymcheck := htryIff _ hmem
      dsimp only at hsymcheck
      rw [getCellI_natCast, hold] at hsymcheck
      rcases hsymcheck with hbad | ⟨adj, fa, fb, hadj, hta, htb, hff⟩
      · exact absurd hbad (by simp)
      · simp only [Option.some.injEq] at hadj
        refine ⟨t, fb, fa, rfl, ?_, hta, ?_⟩
        · rw [← hadj] at htb
          exact htb
        · rw [fits_comm]
          exact hff
    · exact hxold

/-! ## Reachable search states -/

/-- The slot `findEmpty` reports is an empty cell. -/
theorem findEmpty_cell (g : Grid) (row col : Nat)
    (hfe : findEmpty g = some (row, col)) : getCell g row col = some none := by
  rw [findEmpty_eq_head] at hfe
  rcases hq : nones g with _ | ⟨y, ys⟩
  · rw [hq] at hfe
    exact absurd hfe (by simp)
  · rw [hq] at hfe
    simp only [List.head?_cons, Option.some.injEq] at hfe
    have hm : (row, col) ∈ nones g := by
      rw [hq, ← hfe]
      exact List.mem_cons_self _ _
    exact (nones_mem g row col).mp hm

/-- Every state the search reaches keeps full tiles in hand, preserves the
frame and fills interior slots with full tiles, and keeps all filled slots
consistent. -/
theorem reach_invariant (board : List Face) (s : Nat) (tiles0 : List Tile)
    (hs : 1 ≤ s) (hb : board.length = 6 * s)
    (hfull0 : ∀ t ∈ tiles0, FullTile t) :
    ∀ g tiles, Reaches (init_solution board) tiles0 g tiles →
      (∀ t ∈ tiles, FullTile t) ∧ GoodState (init_solution board) g ∧
        Consistent (init_solution board) g := by
  intro g tiles hreach
  induction hreach with
  | init => exact ⟨hfull0, goodState_init _, consistent_init _⟩
  | @step g' tiles' row col k m hre hfe hk htry ih =>
    obtain ⟨ihfull, ihgood, ihcons⟩ := ih
    have hcell : getCell g' row col = some none := findEmpty_cell g' row col hfe
    have hfullt : FullTile ((tiles'.getD k default).rotate (m : Int)) := by
      apply fullTile_rotate
      apply ihfull
      rw [List.getD_eq_getElem tiles' default hk]
      exact List.getElem_mem hk
    refine ⟨?_, place_goodState _ g' row col _ ihgood hcell hfullt,
      place_consistent board s g' row col _ hs hb ihgood ihcons hcell htry⟩
    intro t2 ht2
    exact ihfull t2 (List.eraseIdx_subset tiles' k ht2)

/-- C10: in every search state reachable by `solve` from a validly built
initial board (boundary of length `6 s`, every supplied tile carrying all
three faces), whenever the fit test consults a non-empty neighbor of the
first empty slot, that neighbor holds a present (non-`None`) face at the
queried edge position: an interior neighbor holds a full placed tile, and a
frame neighbor is consulted exactly at the single position where it carries
its boundary face, so the `fits` call never dereferences a missing face. -/
theorem frame_never_missing (board : List Face) (s : Nat) (tiles0 : List Tile)
    (g : Grid) (tiles : List Tile) (row col : Nat)
    (hs : 1 ≤ s) (hb : board.length = 6 * s)
    (hfull0 : ∀ t ∈ tiles0, FullTile t)
    (hreach : Reaches (init_solution board) tiles0 g tiles)
    (hfe : findEmpty g = some (row, col)) :
    ∀ x ∈ adj_spaces (side (g.length : Int)) (row : Int) (col : Int),
      ∀ adj : Tile, getCellI g x.1 x.2.1 = some (some adj) →
        (adj.get x.2.2).isSome := by
  obtain ⟨hfull, hgood, hcons⟩ :=
    reach_invariant board s tiles0 hs hb hfull0 g tiles hreach
  obtain ⟨hsh, hpres, hfill⟩ := hgood
  have hgl : g.length = 4 * s + 2 := by
    rw [sameShape_length hsh, init_length board s hb]
  have hcell : getCell g row col = some none := findEmpty_cell g row col hfe
  have h00 : getCell (init_solution board) row col = some none :=
    cell_none_good _ g ⟨hsh, hpres, hfill⟩ row col hcell
  have hI : Interior s row col := (init_cell_interior board s row col hs hb).mp h00
  rw [hgl, side_rows]
  intro x hx adj hadj
  obtain ⟨ar, ac, hx1, hx2, har, hac, hsym, hframe⟩ := adj_master s row col hs hI x hx
  rw [hx1, hx2, getCellI_natCast] at hadj
  by_cases hIn : Interior s ar ac
  · have h0n : getCell (init_solution board) ar ac = some none :=
      (init_cell_interior board s ar ac hs hb).mpr hIn
    exact fullTile_get adj (hfill ar ac adj h0n hadj) x.2.2
  · obtain ⟨ft, hft, hsome⟩ := init_cell_frame board s ar ac hs hb har hac hIn
    have hpre := hpres ar ac (some ft) hft (by simp)
    rw [hadj] at hpre
    simp only [Option.some.injEq] at hpre
    rw [hframe hIn] at hsome
    rw [← hpre] at hsome
    exact hsome

/-- Witness for `frame_never_missing`: the initial state of the order-1
fixture, whose first empty slot is (1, 1). -/
theorem frame_never_missing_witness :
    (1 ≤ 1 ∧ fixB.length = 6 * 1 ∧ (∀ t ∈ fixT, FullTile t) ∧
      findEmpty (init_solution fixB) = some (1, 1)) ∧
    (∀ x ∈ adj_spaces (side ((init_solution fixB).length : Int))
        ((1 : Nat) : Int) ((1 : Nat) : Int),
      ∀ adj : Tile, getCellI (init_solution fixB) x.1 x.2.1 = some (some adj) →
        (adj.get x.2.2).isSome) :=
  ⟨⟨by decide, by decide, by decide, by decide⟩,
    frame_never_missing fixB 1 fixT (init_solution fixB) fixT 1 1 (by decide)
      (by decide) (by decide) Reaches.init (by decide)⟩

/-! ## Soundness of the search -/

/-- The validator's count equation guarantees at least as many tiles as
empty slots (the source computes the space count from
`side(board) = (len(board) - 2) // 4`, which is at least the true order
`s = len(board) // 6`). -/
theorem validated_count (board : List Face) (s : Nat) (tiles : List Tile)
    (hs : 1 ≤ s) (hb : board.length = 6 * s)
    (hval : (tiles.length : Int) = spaces (side (board.length : Int))) :
    (nones (init_solution board)).length ≤ tiles.length := by
  rw [init_nones_count board s hs hb]
  rw [hb] at hval
  unfold spaces side at hval
  have hq : (s : Int) ≤ (6 * (s : Int) - 2) / 4 := by
    omega
  have hq0 : (0 : Int) ≤ (s : Int) := Int.natCast_nonneg s
  have hsq : (s : Int) ^ 2 ≤ ((6 * (s : Int) - 2) / 4) ^ 2 := by
    have := mul_le_mul hq hq hq0 (le_trans hq0 hq)
    simpa [pow_two] using this
  have hle : ((6 * s ^ 2 : Nat) : Int) ≤ (tiles.length : Int) := by
    rw [hval]
    push_cast
    nlinarith [hsq]
  exact_mod_cast hle

/-- Every board the search yields from a good consistent state with enough
tiles is complete and keeps all placements consistent. -/
theorem solve_sound_aux (board : List Face) (s : Nat) (hs : 1 ≤ s)
    (hb : board.length = 6 * s) :
    ∀ n (g : Grid) (tiles : List Tile), tiles.length = n →
      GoodState (init_solution board) g → Consistent (init_solution board) g →
      (∀ t ∈ tiles, FullTile t) → (nones g).length ≤ tiles.length →
      ∀ b ∈ solve g tiles, nones b = [] ∧ Consistent (init_solution board) b := by
  intro n
  induction n with
  | zero =>
    intro g tiles hlen hgood hcons hfull hcount b hmem
    have htn : tiles = [] := List.length_eq_zero.mp hlen
    subst htn
    rw [solve_nil] at hmem
    simp only [List.mem_singleton] at hmem
    subst hmem
    exact ⟨List.length_eq_zero.mp (by omega), hcons⟩
  | succ n ih =>
    intro g tiles hlen hgood hcons hfull hcount b hmem
    rcases tiles with _ | ⟨t0, ts⟩
    · exact absurd hlen (by simp)
    · rcases hfe : findEmpty g with _ | ⟨row, col⟩
      · rw [solve_deadend g t0 ts hfe] at hmem
        exact absurd hmem (by simp)
      · rw [solve_cons g t0 ts row col hfe] at hmem
        obtain ⟨k, hkmem, hmem2⟩ := List.mem_flatMap.mp hmem
        obtain ⟨m, hmmem, hmem3⟩ := List.mem_flatMap.mp hmem2
        by_cases hcond : try_tile (((t0 :: ts).getD k default).rotate (m : Int)) g
            (row : Int) (col : Int) = some true
        · rw [if_pos hcond] at hmem3
          have hk : k < (t0 :: ts).length := List.mem_range.mp hkmem
          have hcell : getCell g row col = some none := findEmpty_cell g row col hfe
          have hfullt : FullTile (((t0 :: ts).getD k default).rotate (m : Int)) := by
            apply fullTile_rotate
            apply hfull
            rw [List.getD_eq_getElem _ default hk]
            exact List.getElem_mem hk
          have hlen2 : ((t0 :: ts).eraseIdx k).length = n := by
            rw [length_eraseIdx_cons t0 ts k (by simpa using hk)]
            simpa using hlen
          have hcount2 :
              (nones (setCell g row col
                (some (((t0 :: ts).getD k default).rotate (m : Int))))).length ≤
                ((t0 :: ts).eraseIdx k).length := by
            rw [nones_setCell_head g row col _ hfe, List.length_tail, hlen2]
            have hc2 : (nones g).length ≤ ts.length + 1 := by simpa using hcount
            have hn : ts.length = n := by simpa using hlen
            omega
          exact ih _ _ hlen2
            (place_goodState _ g row col _ hgood hcell hfullt)
            (place_consistent board s g row col _ hs hb hgood hcons hcell hcond)
            (fun t2 ht2 => hfull t2 (List.eraseIdx_subset _ _ ht2))
            hcount2 b hmem3
        · rw [if_neg hcond] at hmem3
          exact absurd hmem3 (by simp)

/-- C1: with a validated input (boundary of length `6 s`, full tiles, and the
validator's tile-count equation), every board produced by `solve` from the
initial board is a complete assignment — no slot is left empty — and every
slot the search filled passes `try_tile` against the final board: its face at
each edge position fits the face at the matching edge position of every
non-empty neighbor, fixed frame slots included. -/
theorem solve_sound (board : List Face) (s : Nat) (tiles : List Tile) (b : Grid)
    (hs : 1 ≤ s) (hb : board.length = 6 * s)
    (hfull : ∀ t ∈ tiles, FullTile t)
    (hval : (tiles.length : Int) = spaces (side (board.length : Int)))
    (hmem : b ∈ solve (init_solution board) tiles) :
    nones b = [] ∧ Consistent (init_solution board) b :=
  solve_sound_aux board s hs hb tiles.length (init_solution board) tiles rfl
    (goodState_init _) (consistent_init _) hfull
    (validated_count board s tiles hs hb hval) b hmem

/-- Witness for `solve_sound` at the order-1 fixture and its unique
solution. -/
theorem solve_sound_witness :
    (1 ≤ 1 ∧ fixB.length = 6 * 1 ∧ (∀ t ∈ fixT, FullTile t) ∧
      ((fixT.length : Nat) : Int) = spaces (side (fixB.length : Int)) ∧
      fixSol ∈ solve (init_solution fixB) fixT) ∧
    (nones fixSol = [] ∧ Consistent (init_solution fixB) fixSol) :=
  ⟨⟨by decide, by decide, by decide, by decide, by decide⟩,
    solve_sound fixB 1 fixT fixSol (by decide) (by decide) (by decide) (by decide)
      (by decide)⟩

/-! ## Completeness support: list and grid lemmas -/

/-- Symmetry of `SameShape`. -/
theorem sameShape_symm {a b : Grid} (h : SameShape a b) : SameShape b a :=
  fun r => (h r).symm

/-- Grids with the same shape and the same cells are equal. -/
theorem grid_ext (a b : Grid) (hsh : SameShape a b)
    (hcell : ∀ r c, getCell a r c = getCell b r c) : a = b := by
  apply List.ext_getElem?
  intro r
  have h1 := hsh r
  rcases ha : a[r]? with _ | ra
  · rw [ha] at h1
    rcases hb : b[r]? with _ | rb
    · rfl
    · rw [hb] at h1
      exact absurd h1 (by simp)
  · rw [ha] at h1
    rcases hb : b[r]? with _ | rb
    · rw [hb] at h1
      exact absurd h1 (by simp)
    · rw [hb] at h1
      congr 1
      apply List.ext_getElem?
      intro c
      have hc := hcell r c
      rw [getCell, getCell, ha, hb] at hc
      simpa using hc

/-- Length of a filterMap whose function never fails on the list. -/
theorem filterMap_length_of_some {α β : Type} (f : α → Option β) :
    ∀ l : List α, (∀ a ∈ l, (f a).isSome) → (l.filterMap f).length = l.length := by
  intro l
  induction l with
  | nil => intro h; rfl
  | cons a as ih =>
    intro h
    obtain ⟨y, hy⟩ := Option.isSome_iff_exists.mp (h a (List.mem_cons_self _ _))
    rw [List.filterMap_cons, hy, List.length_cons,
      ih (fun a' ha' => h a' (List.mem_cons_of_mem _ ha'))]
    rfl

/-- Any list is a permutation of any of its elements consed on the rest. -/
theorem perm_getElem_eraseIdx {α : Type} :
    ∀ (l : List α) (k : Nat) (hk : k < l.length), l.Perm (l[k] :: l.eraseIdx k)
  | [], k, hk => absurd hk (by simp)
  | x :: xs, 0, _ => List.Perm.refl _
  | x :: xs, k + 1, hk => by
    have hk2 : k < xs.length := by simpa using hk
    have ih := perm_getElem_eraseIdx xs k hk2
    exact (ih.cons x).trans (List.Perm.swap (xs[k]) x (xs.eraseIdx k))

/-- Pointwise relation at an index from `Forall₂`. -/
theorem forall₂_getElem {α β : Type} {R : α → β → Prop} :
    ∀ {l₁ : List α} {l₂ : List β}, List.Forall₂ R l₁ l₂ →
      ∀ k (h1 : k < l₁.length) (h2 : k < l₂.length), R l₁[k] l₂[k] := by
  intro l₁ l₂ h
  induction h with
  | nil =>
    intro k h1 h2
    exact absurd h1 (by simp)
  | cons ha htail ih =>
    intro k h1 h2
    cases k with
    | zero => exact ha
    | succ kk => exact ih kk (by simpa using h1) (by simpa using h2)

/-- `Forall₂` is preserved by erasing the same index on both sides. -/
theorem forall₂_eraseIdx {α β : Type} {R : α → β → Prop} :
    ∀ {l₁ : List α} {l₂ : List β}, List.Forall₂ R l₁ l₂ →
      ∀ k, List.Forall₂ R (l₁.eraseIdx k) (l₂.eraseIdx k) := by
  intro l₁ l₂ h
  induction h with
  | nil =>
    intro k
    exact List.Forall₂.nil
  | cons ha htail ih =>
    intro k
    cases k with
    | zero => exact htail
    | succ kk => exact List.Forall₂.cons ha (ih kk)

/-- A complete board fills every slot that is empty in a same-shaped grid. -/
theorem complete_cell (g0 b g : Grid) (row col : Nat)
    (hshb : SameShape b g0) (hshg : SameShape g g0) (hnoneb : nones b = [])
    (hgn : getCell g row col = some none) :
    ∃ tb, getCell b row col = some (some tb) := by
  have h1 : (getCell b row col).isSome := by
    rw [sameShape_isSome hshb row col, ← sameShape_isSome hshg row col, hgn]
    rfl
  obtain ⟨yb, hyb⟩ := Option.isSome_iff_exists.mp h1
  rcases yb with _ | tb
  · have hm : (row, col) ∈ nones b := (nones_mem b row col).mpr hyb
    rw [hnoneb] at hm
    exact absurd hm (by simp)
  · exact ⟨tb, hyb⟩

/-- Decomposition of `placedTiles` at the first empty slot. -/
theorem placedTiles_cons (b g : Grid) (row col : Nat) (tb : Tile)
    (hfe : findEmpty g = some (row, col))
    (hbc : getCell b row col = some (some tb)) :
    placedTiles b g = tb :: (nones g).tail.filterMap
      (fun rc => (getCell b rc.1 rc.2).bind id) := by
  rw [findEmpty_eq_head] at hfe
  rcases hq : nones g with _ | ⟨y, ys⟩
  · rw [hq] at hfe
    exact absurd hfe (by simp)
  · rw [hq] at hfe
    simp only [List.head?_cons, Option.some.injEq] at hfe
    subst hfe
    rw [placedTiles, hq, List.filterMap_cons]
    dsimp only
    rw [hbc]
    rfl

/-- The placed tiles of the successor state are the tail of the current
placed tiles. -/
theorem placedTiles_set (b g : Grid) (row col : Nat) (t : Tile)
    (hfe : findEmpty g = some (row, col)) :
    placedTiles b (setCell g row col (some t)) =
      (nones g).tail.filterMap (fun rc => (getCell b rc.1 rc.2).bind id) := by
  rw [placedTiles, nones_setCell_head g row col t hfe]

/-- A tile check against the complete board transfers down to any
intermediate state that agrees with it on filled slots. -/
theorem try_tile_transfer (board : List Face) (s : Nat) (g b : Grid)
    (row col : Nat) (t : Tile) (hs : 1 ≤ s) (hb : board.length = 6 * s)
    (hshg : SameShape g (init_solution board))
    (hshb : SameShape b (init_solution board))
    (hagree : ∀ r c x, getCell g r c = some (some x) → getCell b r c = some (some x))
    (hI : Interior s row col)
    (htb : try_tile t b (row : Int) (col : Int) = some true) :
    try_tile t g (row : Int) (col : Int) = some true := by
  have hglg : g.length = 4 * s + 2 := by
    rw [sameShape_length hshg, init_length board s hb]
  have hglb : b.length = 4 * s + 2 := by
    rw [sameShape_length hshb, init_length board s hb]
  rw [try_tile_adj b t row col s hglb] at htb
  rw [try_tile_adj g t row col s hglg]
  rw [ttGo_true_iff] at htb ⊢
  intro x hx
  obtain ⟨ar, ac, hx1, hx2, har, hac, hsym, hframe⟩ := adj_master s row col hs hI x hx
  have hxb := htb x hx
  rw [hx1, hx2, getCellI_natCast] at hxb
  rw [hx1, hx2, getCellI_natCast]
  have hgsome : (getCell g ar ac).isSome :=
    (shape_cell_isSome board s g ar ac hs hb hshg).mpr ⟨har, hac⟩
  obtain ⟨y, hy⟩ := Option.isSome_iff_exists.mp hgsome
  rcases y with _ | adj
  · exact Or.inl hy
  · have hbc := hagree ar ac adj hy
    rw [hbc] at hxb
    rcases hxb with hbad | ⟨adj2, fa, fb, hadj2, hta, htb2, hff⟩
    · exact absurd hbad (by simp)
    · simp only [Option.some.injEq] at hadj2
      refine Or.inr ⟨adj, fa, fb, hy, hta, ?_, hff⟩
      rw [← hadj2] at htb2
      exact htb2

/-! ## Completeness of the search -/

/-- Any complete constraint-satisfying board whose placed tiles are (up to
rotation) a permutation of the remaining tiles is found by `solve` from any
intermediate state agreeing with it. -/
theorem solve_complete_aux (board : List Face) (s : Nat) (b : Grid)
    (hs : 1 ≤ s) (hb : board.length = 6 * s)
    (hgoodb : GoodState (init_solution board) b)
    (hnoneb : nones b = [])
    (hconsb : Consistent (init_solution board) b) :
    ∀ n (g : Grid) (tiles : List Tile), tiles.length = n →
      GoodState (init_solution board) g →
      (∀ r c x, getCell g r c = some (some x) → getCell b r c = some (some x)) →
      (∃ ts2, List.Forall₂ RotEq tiles ts2 ∧ ts2.Perm (placedTiles b g)) →
      b ∈ solve g tiles := by
  intro n
  induction n with
  | zero =>
    intro g tiles hlen hgood hagree hex
    obtain ⟨ts2, hr, hperm⟩ := hex
    have htiles : tiles = [] := List.length_eq_zero.mp hlen
    subst htiles
    have hts2 : ts2 = [] := by
      have hl := hr.length_eq
      exact List.length_eq_zero.mp (by omega)
    subst hts2
    have hplaced : placedTiles b g = [] := by
      have hl := hperm.length_eq
      exact List.length_eq_zero.mp (by omega)
    have hfillb : ∀ rc ∈ nones g,
        ((fun rc => (getCell b rc.1 rc.2).bind id) rc).isSome := by
      intro rc hm
      obtain ⟨r, c⟩ := rc
      have hgn : getCell g r c = some none := (nones_mem g r c).mp hm
      obtain ⟨tb, htb⟩ := complete_cell (init_solution board) b g r c hgoodb.1
        hgood.1 hnoneb hgn
      dsimp only
      rw [htb]
      rfl
    have hlenp := filterMap_length_of_some _ (nones g) hfillb
    have hng : nones g = [] := by
      rw [placedTiles] at hplaced
      rw [hplaced] at hlenp
      exact List.length_eq_zero.mp (by simpa using hlenp.symm)
    have hgb : g = b := by
      apply grid_ext g b (sameShape_trans hgood.1 (sameShape_symm hgoodb.1))
      intro r c
      rcases hq : getCell g r c with _ | y
      · have hbn : (getCell b r c).isSome = false := by
          rw [sameShape_isSome hgoodb.1 r c, ← sameShape_isSome hgood.1 r c, hq]
          rfl
        rcases hq2 : getCell b r c with _ | y
        · rfl
        · rw [hq2] at hbn
          exact absurd hbn (by simp)
      · rcases y with _ | x
        · have hm : (r, c) ∈ nones g := (nones_mem g r c).mpr hq
          rw [hng] at hm
          exact absurd hm (by simp)
        · rw [hagree r c x hq]
    rw [solve_nil]
    simp [hgb]
  | succ n ih =>
    intro g tiles hlen hgood hagree hex
    obtain ⟨ts2, hr, hperm⟩ := hex
    rcases tiles with _ | ⟨t0, ts⟩
    · exact absurd hlen (by simp)
    · -- lengths: every empty slot of g is filled in b
      have hfillb : ∀ rc ∈ nones g,
          ((fun rc => (getCell b rc.1 rc.2).bind id) rc).isSome := by
        intro rc hm
        obtain ⟨r, c⟩ := rc
        have hgn : getCell g r c = some none := (nones_mem g r c).mp hm
        obtain ⟨tb, htb⟩ := complete_cell (init_solution board) b g r c hgoodb.1
          hgood.1 hnoneb hgn
        dsimp only
        rw [htb]
        rfl
      have hlenp := filterMap_length_of_some _ (nones g) hfillb
      have hnlen : (nones g).length = n + 1 := by
        have h1 := hr.length_eq
        have h2 := hperm.length_eq
        rw [placedTiles] at h2
        omega
      obtain ⟨⟨row, col⟩, hfe⟩ : ∃ rc, findEmpty g = some rc := by
        rw [findEmpty_eq_head]
        rcases hq : nones g with _ | ⟨y, ys⟩
        · rw [hq] at hnlen
          exact absurd hnlen (by simp)
        · exact ⟨y, by simp⟩
      have hgn : getCell g row col = some none := findEmpty_cell g row col hfe
      obtain ⟨tb, hbfill⟩ := complete_cell (init_solution board) b g row col
        hgoodb.1 hgood.1 hnoneb hgn
      have h00 : getCell (init_solution board) row col = some none :=
        cell_none_good _ g hgood row col hgn
      have hIrc : Interior s row col :=
        (init_cell_interior board s row col hs hb).mp h00
      have hfulltb : FullTile tb := hgoodb.2.2 row col tb h00 hbfill
      have hplc := placedTiles_cons b g row col tb hfe hbfill
      -- locate tb among the oriented tiles
      have htbmem : tb ∈ ts2 := hperm.mem_iff.mpr (by
        rw [hplc]
        exact List.mem_cons_self _ _)
      obtain ⟨k, hk, hkeq⟩ := List.getElem_of_mem htbmem
      have hklt : k < (t0 :: ts).length := by
        rw [hr.length_eq]
        exact hk
      have hrk : RotEq (t0 :: ts)[k] tb := by
        have := forall₂_getElem hr k hklt hk
        rw [hkeq] at this
        exact this
      obtain ⟨m0, hm0, hrot⟩ := hrk
      obtain ⟨mm, hmm_mem, hmmeq⟩ :
          ∃ mm ∈ ([1, 2, 3] : List Int), mm % 3 = ((m0 : Nat) : Int) % 3 := by
        have hcase : m0 = 0 ∨ m0 = 1 ∨ m0 = 2 := by omega
        rcases hcase with rfl | rfl | rfl
        · exact ⟨3, by simp, by decide⟩
        · exact ⟨1, by simp, by decide⟩
        · exact ⟨2, by simp, by decide⟩
      have htile_eq : ((t0 :: ts).getD k default).rotate mm = tb := by
        rw [List.getD_eq_getElem _ default hklt, rotate_mod _ _ _ hmmeq]
        exact hrot.symm
      -- the target tile passes the check in the current state
      have htryb : try_tile tb b (row : Int) (col : Int) = some true :=
        hconsb row col tb h00 hbfill
      have htry : try_tile tb g (row : Int) (col : Int) = some true :=
        try_tile_transfer board s g b row col tb hs hb hgood.1 hgoodb.1
          hagree hIrc htryb
      -- invariants of the successor state
      have hgood2 := place_goodState _ g row col tb hgood hgn hfulltb
      have hagree2 : ∀ r c x,
          getCell (setCell g row col (some tb)) r c = some (some x) →
          getCell b r c = some (some x) := by
        intro r c x hx
        rw [getCell_setCell] at hx
        split_ifs at hx with heq
        · obtain ⟨rfl, rfl⟩ := heq
          rw [hgn] at hx
          simp only [Option.map_some', Option.some.injEq] at hx
          rw [← hx]
          exact hbfill
        · exact hagree r c x hx
      have hlen2 : ((t0 :: ts).eraseIdx k).length = n := by
        rw [length_eraseIdx_cons t0 ts k (by simpa using hklt)]
        simpa using hlen
      have hperm2 : (ts2.eraseIdx k).Perm
          (placedTiles b (setCell g row col (some tb))) := by
        have hp1 : ts2.Perm (tb :: ts2.eraseIdx k) := by
          have := perm_getElem_eraseIdx ts2 k hk
          rw [hkeq] at this
          exact this
        have hp2 : (tb :: ts2.eraseIdx k).Perm (tb :: placedTiles b
            (setCell g row col (some tb))) := by
          refine hp1.symm.trans (hperm.trans ?_)
          rw [hplc, placedTiles_set b g row col tb hfe]
        exact hp2.cons_inv
      rw [solve_cons g t0 ts row col hfe]
      apply List.mem_flatMap.mpr
      refine ⟨k, List.mem_range.mpr hklt, ?_⟩
      apply List.mem_flatMap.mpr
      refine ⟨mm, hmm_mem, ?_⟩
      dsimp only
      rw [htile_eq, if_pos htry]
      exact ih (setCell g row col (some tb)) ((t0 :: ts).eraseIdx k) hlen2
        hgood2 hagree2 ⟨ts2.eraseIdx k, forall₂_eraseIdx hr k, hperm2⟩

/-- C2: for a validated board of order `s` and tiles, `solve` enumerates every
complete constraint-satisfying assignment: any board with the same shape that
keeps the frame, fills every slot (with full tiles), passes `try_tile` on all
filled slots, and places (up to the three rotations) exactly the supplied tile
multiset, is produced by `solve` — in particular whenever such an assignment
exists the search yields at least one solution, with no false negatives from
the first-empty-slot scan order or from backtracking. -/
theorem solve_complete (board : List Face) (s : Nat) (tiles : List Tile) (b : Grid)
    (hs : 1 ≤ s) (hb : board.length = 6 * s)
    (hgoodb : GoodState (init_solution board) b)
    (hnoneb : nones b = [])
    (hconsb : Consistent (init_solution board) b)
    (hperm : ∃ ts2, List.Forall₂ RotEq tiles ts2 ∧
      ts2.Perm (placedTiles b (init_solution board))) :
    b ∈ solve (init_solution board) tiles :=
  solve_complete_aux board s b hs hb hgoodb hnoneb hconsb tiles.length
    (init_solution board) tiles rfl (goodState_init _)
    (fun r c x hx => hgoodb.2.1 r c (some x) hx (by simp)) hperm

/-- Every tile is rotation-equivalent to itself. -/
theorem rotEq_refl (t : Tile) : RotEq t t := ⟨0, by omega, rfl⟩

/-- The fixture solution has the shape of the fixture's initial board. -/
theorem fixSol_shape : SameShape fixSol (init_solution fixB) := by
  intro r
  rcases Nat.lt_or_ge r 6 with hr | hr
  · have key : ∀ r' < 6,
        fixSol[r']?.map List.length = (init_solution fixB)[r']?.map List.length := by
      decide
    exact key r hr
  · rw [List.getElem?_eq_none (show fixSol.length ≤ r from by
        rw [show fixSol.length = 6 from rfl]
        omega),
      List.getElem?_eq_none (show (init_solution fixB).length ≤ r from by
        rw [init_length fixB 1 (by decide)]
        omega)]

/-- The fixture solution is a good state over the fixture's initial board. -/
theorem fixSol_good : GoodState (init_solution fixB) fixSol := by
  refine ⟨fixSol_shape, ?_, ?_⟩
  · intro r c x hx hne
    obtain ⟨hr, row, hrow, hc, hmem⟩ := getCell_some_bounds _ r c x hx
    rw [init_length fixB 1 (by decide)] at hr
    have hc3 : c < 3 := by
      have hwid : ∀ row2 ∈ init_solution fixB, row2.length ≤ 3 := by decide
      exact Nat.lt_of_lt_of_le hc (hwid row hmem)
    have key : ∀ r' < 6, ∀ c' < 3,
        ((getCell (init_solution fixB) r' c').all (fun x' =>
          x' == none || getCell fixSol r' c' == some x')) = true := by decide
    have hk := key r (by omega) c hc3
    rw [hx] at hk
    simp only [Option.all_some, Bool.or_eq_true] at hk
    rcases hk with h1 | h2
    · exact absurd (eq_of_beq h1) hne
    · exact eq_of_beq h2
  · intro r c t h0 hcell
    obtain ⟨hr, row, hrow, hc, hmem⟩ := getCell_some_bounds _ r c _ h0
    rw [init_length fixB 1 (by decide)] at hr
    have hc3 : c < 3 := by
      have hwid : ∀ row2 ∈ init_solution fixB, row2.length ≤ 3 := by decide
      exact Nat.lt_of_lt_of_le hc (hwid row hmem)
    have key : ∀ r' < 6, ∀ c' < 3,
        ((getCell (init_solution fixB) r' c' != some none) ||
          (getCell fixSol r' c').all (fun y => y.all (fun t' =>
            decide (FullTile t')))) = true := by decide
    have hk := key r (by omega) c hc3
    rw [h0] at hk
    simp only [bne_self_eq_false, Bool.false_or] at hk
    rw [hcell] at hk
    simp only [Option.all_some] at hk
    exact of_decide_eq_true hk

/-- The fixture solution satisfies every adjacency constraint. -/
theorem fixSol_consistent : Consistent (init_solution fixB) fixSol := by
  intro r c t h0 hcell
  obtain ⟨hr, row, hrow, hc, hmem⟩ := getCell_some_bounds _ r c _ h0
  rw [init_length fixB 1 (by decide)] at hr
  have hc3 : c < 3 := by
    have hwid : ∀ row2 ∈ init_solution fixB, row2.length ≤ 3 := by decide
    exact Nat.lt_of_lt_of_le hc (hwid row hmem)
  have key : ∀ r' < 6, ∀ c' < 3,
      ((getCell (init_solution fixB) r' c' != some none) ||
        (getCell fixSol r' c').all (fun y => y.all (fun t' =>
          try_tile t' fixSol (r' : Int) (c' : Int) == some true))) = true := by decide
  have hk := key r (by omega) c hc3
  rw [h0] at hk
  simp only [bne_self_eq_false, Bool.false_or] at hk
  rw [hcell] at hk
  simp only [Option.all_some] at hk
  exact eq_of_beq hk

/-- Witness for `solve_complete`: the unique complete assignment of the
order-1 fixture is indeed found by the search. -/
theorem solve_complete_witness :
    (1 ≤ 1 ∧ fixB.length = 6 * 1 ∧ GoodState (init_solution fixB) fixSol ∧
      nones fixSol = [] ∧ Consistent (init_solution fixB) fixSol ∧
      (∃ ts2, List.Forall₂ RotEq fixT ts2 ∧
        ts2.Perm (placedTiles fixSol (init_solution fixB)))) ∧
    fixSol ∈ solve (init_solution fixB) fixT :=
  ⟨⟨by decide, by decide, fixSol_good, by decide, fixSol_consistent,
    ⟨fixT, List.forall₂_same.mpr (fun x _ => rotEq_refl x),
      List.Perm.of_eq (by decide)⟩⟩,
    solve_complete fixB 1 fixT fixSol (by decide) (by decide) fixSol_good
      (by decide) fixSol_consistent
      ⟨fixT, List.forall₂_same.mpr (fun x _ => rotEq_refl x),
        List.Perm.of_eq (by decide)⟩⟩

end Puzzle
